import Mathlib

/-!
Verification of the catalog query service (`src/routes/products.js`):
text normalization, inverted word/trigram/category indexes, the
search/filter/sort/paginate pipeline, the response cache and the
mutation operations.  Strings are modelled as `List Char` (`Chars`),
product ids as `Nat` (the source uses decimal-string ids, which are in
bijection with naturals), and the JS `Map`/`Set` structures as
insertion-ordered association lists without duplicates, matching the
iteration order the source relies on.
-/

abbrev Chars := List Char

/-- One step of `value.replace(/\s+/g, ' ')`: collapse every maximal run of
whitespace to a single space (`normalizeText`, products.js line 27). -/
def squeezeWs : Chars → Chars
  | [] => []
  | [c] => [if c.isWhitespace then ' ' else c]
  | c :: d :: r =>
    if c.isWhitespace && d.isWhitespace then squeezeWs (d :: r)
    else (if c.isWhitespace then ' ' else c) :: squeezeWs (d :: r)

/-- JS `String.prototype.trim()`: drop whitespace at both ends. -/
def trimWs (l : Chars) : Chars :=
  ((l.dropWhile Char.isWhitespace).reverse.dropWhile Char.isWhitespace).reverse

/-- `normalizeText` (products.js lines 26-28):
`value.toLowerCase().replace(/\s+/g, ' ').trim()`. -/
def normalizeText (l : Chars) : Chars :=
  trimWs (squeezeWs (l.map Char.toLower))

/-- Maximal alphanumeric tokens of a string: the non-empty pieces produced by
`text.split(/[^a-z0-9]+/i)`.  `cur` is the (reversed) token currently being
scanned. -/
def tokensAux (cur : Chars) : Chars → List Chars
  | [] => if cur.isEmpty then [] else [cur.reverse]
  | c :: r =>
    if c.isAlphanum then tokensAux (c :: cur) r
    else if cur.isEmpty then tokensAux [] r
    else cur.reverse :: tokensAux [] r

/-- `getWords` (products.js lines 30-32):
`text.split(/[^a-z0-9]+/i).filter(word => word.length > 1)`. -/
def getWords (t : Chars) : List Chars :=
  (tokensAux [] t).filter (fun w => 1 < w.length)

/-- `getTrigrams` (products.js lines 34-43): every window of 3 consecutive
characters; empty when the text is shorter than 3. -/
def getTrigrams : Chars → List Chars
  | a :: b :: c :: r => [a, b, c] :: getTrigrams (b :: c :: r)
  | _ => []

/-- Pattern `pat` matches at the very start of `t` (helper for `hasSub`). -/
def leadsWith : Chars → Chars → Bool
  | [], _ => true
  | _ :: _, [] => false
  | a :: ps, b :: ts => a = b && leadsWith ps ts

/-- JS `text.includes(pat)`: `pat` occurs contiguously somewhere in `t`. -/
def hasSub (pat : Chars) : Chars → Bool
  | [] => leadsWith pat []
  | t :: ts => leadsWith pat (t :: ts) || hasSub pat ts

/-- `pat` occurs contiguously in `t` (propositional version of `hasSub`). -/
def OccursIn (pat t : Chars) : Prop :=
  ∃ a b, t = a ++ pat ++ b

/-- A catalog product (products.js lines 169-185 and 353-368).  Ids are the
naturals behind the source's decimal-string ids; `price`, `rating` and
`costPrice` are modelled as integers (their arithmetic is irrelevant to the
claims, only their ordering matters); `createdAt` is a timestamp.
`searchableText` is the derived field recomputed by `buildIndexes`. -/
structure Product where
  id : Nat
  name : Chars
  description : Chars
  price : Int
  category : Chars
  brand : Chars
  stock : Nat
  rating : Int
  tags : List Chars
  createdAt : Nat
  costPrice : Int
  supplier : Chars
  internalNotes : Chars
  adminOnly : Bool
  searchableText : Chars
deriving DecidableEq, Repr

/-- The string `` `${product.name} ${product.description}` `` fed to
`normalizeText` when indexing (products.js line 59). -/
def searchSource (p : Product) : Chars :=
  p.name ++ ' ' :: p.description

/-- The per-product mutation performed at the top of the `buildIndexes` loop
(products.js lines 59-60): store the recomputed `searchableText`. -/
def refresh (p : Product) : Product :=
  { p with searchableText := normalizeText (searchSource p) }

/-- An inverted index: insertion-ordered association list from key to the
posting list of product ids, modelling a JS `Map` of `Set`s. -/
abbrev Index := List (Chars × List Nat)

/-- `addToIndex` (products.js lines 45-50): add `i` to the posting set of
`k`, creating the bucket if needed.  `Set.add` keeps insertion order and
ignores duplicates. -/
def addToIndex : Index → Chars → Nat → Index
  | [], k, i => [(k, [i])]
  | (k', s) :: rest, k, i =>
    if k' = k then (k', if i ∈ s then s else s ++ [i]) :: rest
    else (k', s) :: addToIndex rest k i

/-- `indexMap.get(key)`, with a missing key read as the empty posting set
(the `|| new Set()` at products.js lines 232, 241, 261). -/
def findIdx : Index → Chars → List Nat
  | [], _ => []
  | (k', s) :: rest, k => if k' = k then s else findIdx rest k

/-- The primary index `productById`: a JS `Map` from id to product. -/
abbrev ById := List (Nat × Product)

/-- `productById.set(id, product)` (products.js line 62). -/
def setById : ById → Nat → Product → ById
  | [], i, p => [(i, p)]
  | (j, q) :: rest, i, p =>
    if j = i then (j, p) :: rest else (j, q) :: setById rest i p

/-- `productById.get(id)` (products.js line 252 etc.). -/
def findById : ById → Nat → Option Product
  | [], _ => none
  | (j, q) :: rest, i => if j = i then some q else findById rest i

/-- The module-level index state rebuilt wholesale by `buildIndexes`
(products.js lines 10-14): the product array (with `searchableText`
recomputed in place) plus the four derived maps. -/
structure IndexState where
  products : List Product
  byId : ById
  triIdx : Index
  wordIdx : Index
  catIdx : Index
deriving DecidableEq, Repr

/-- The empty index state (the fresh `Map()`s of products.js lines 53-56). -/
def emptyIndexState : IndexState :=
  { products := [], byId := [], triIdx := [], wordIdx := [], catIdx := [] }

/-- The body of the `productList.forEach` loop in `buildIndexes`
(products.js lines 58-67): recompute `searchableText`, register the product
in the primary and category indexes, then index its words and trigrams. -/
def indexStep (st : IndexState) (p : Product) : IndexState :=
  let q := refresh p
  { products := st.products ++ [q]
    byId := setById st.byId q.id q
    catIdx := addToIndex st.catIdx q.category q.id
    wordIdx := (getWords q.searchableText).foldl
      (fun m w => addToIndex m w q.id) st.wordIdx
    triIdx := (getTrigrams q.searchableText).foldl
      (fun m w => addToIndex m w q.id) st.triIdx }

/-- `buildIndexes` (products.js lines 52-70): reset the four maps and index
every product of the list.  (The final `responseCache.clear()` lives at the
application level, see `rebuildApp`.) -/
def buildIndexes (l : List Product) : IndexState :=
  l.foldl indexStep emptyIndexState

/-- The allow-listed sort fields (products.js line 22); any other requested
value falls back to `name` at line 212 before reaching the pipeline. -/
inductive SortField
  | name | price | category | brand | stock | rating | createdAt
deriving DecidableEq, Repr

/-- The sort direction: `'desc'` if requested, `'asc'` otherwise
(products.js line 213). -/
inductive SortOrder
  | asc | desc
deriving DecidableEq, Repr

/-- A sortable field value: product fields are strings, integers or
naturals; for a fixed `SortField` all products yield the same shape. -/
inductive FieldVal
  | s (v : Chars)
  | i (v : Int)
  | n (v : Nat)
deriving DecidableEq, Repr

/-- The field a product is compared by for a given `sortBy`. -/
def fieldOf : SortField → Product → FieldVal
  | .name, p => .s p.name
  | .price, p => .i p.price
  | .category, p => .s p.category
  | .brand, p => .s p.brand
  | .stock, p => .n p.stock
  | .rating, p => .i p.rating
  | .createdAt, p => .n p.createdAt

/-- Lexicographic order on strings by character code, the order JS `<`/`>`
use on strings (restricted to the code points the model covers). -/
def lexLe : Chars → Chars → Bool
  | [], _ => true
  | _ :: _, [] => false
  | a :: as, b :: bs =>
    if a.toNat < b.toNat then true
    else if b.toNat < a.toNat then false
    else lexLe as bs

/-- Non-strict comparison of two field values of the same shape (mixed
shapes never arise for a fixed sort field; they are ordered arbitrarily). -/
def fieldLe : FieldVal → FieldVal → Bool
  | .s a, .s b => lexLe a b
  | .i a, .i b => a ≤ b
  | .n a, .n b => a ≤ b
  | .s _, _ => true
  | .i _, .s _ => false
  | .i _, .n _ => true
  | .n _, _ => false

/-- The comparator `_.orderBy(· , [sortBy], [sortOrder])` sorts by: ties
(equal field values) compare `true` in both directions, so a stable sort
keeps their original order — lodash's `orderBy` is documented to be a
stable sort, which pins down its output uniquely given this comparator. -/
def cmpOf (f : SortField) : SortOrder → Product → Product → Bool
  | .asc, a, b => fieldLe (fieldOf f a) (fieldOf f b)
  | .desc, a, b => fieldLe (fieldOf f b) (fieldOf f a)

/-- `_.orderBy(filteredProducts, [sortBy], [sortOrder])` (products.js line
272), modelled as the (unique) stable sort by `cmpOf`. -/
def orderByField (l : List Product) (f : SortField) (o : SortOrder) : List Product :=
  l.mergeSort (cmpOf f o)

/-- The `candidateIds` accumulation loop (products.js lines 231-238 and
240-247): `none` is the JS `null`; the first key copies its posting set,
every further key intersects (`filter`, preserving order). -/
def planFold (idx : Index) (keys : List Chars) : Option (List Nat) :=
  keys.foldl
    (fun acc k =>
      match acc with
      | none => some (findIdx idx k)
      | some s => some (s.filter (fun i => i ∈ findIdx idx k)))
    none

/-- The candidate-set computation for a non-empty normalized query
(products.js lines 227-248): trigram intersection when the query has
trigrams, else word intersection when it has word tokens, else `null`. -/
def searchCandidates (ix : IndexState) (nq : Chars) : Option (List Nat) :=
  let qt := getTrigrams nq
  let qw := getWords nq
  if qt.length > 0 then planFold ix.triIdx qt
  else if qw.length > 0 then planFold ix.wordIdx qw
  else none

/-- The filtering phase of the list handler (products.js lines 222-269):
text search (materialization + verification filter against
`searchableText.includes(normalizedQuery)`) followed by the category
filter, which intersects when `candidateIds` is non-null and otherwise
sources directly from the category index. -/
def filteredOf (ix : IndexState) (search category : Chars) : List Product :=
  let nq := normalizeText search
  let cand : Option (List Nat) :=
    if nq ≠ [] then searchCandidates ix nq else none
  let fp1 : List Product :=
    if nq ≠ [] then
      match cand with
      | some s =>
        if s.length > 0 then
          (s.filterMap (fun i => findById ix.byId i)).filter
            (fun p => hasSub nq p.searchableText)
        else []
      | none => []
    else ix.products
  if category ≠ [] then
    let cm := findIdx ix.catIdx category
    match cand with
    | none => cm.filterMap (fun i => findById ix.byId i)
    | some _ => fp1.filter (fun p => p.id ∈ cm)
  else fp1

/-- `toPublicProduct` (products.js lines 100-113): the public projection,
excluding `costPrice`, `supplier`, `internalNotes`, `adminOnly`. -/
structure PublicProduct where
  id : Nat
  name : Chars
  description : Chars
  price : Int
  category : Chars
  brand : Chars
  stock : Nat
  rating : Int
  tags : List Chars
  createdAt : Nat
deriving DecidableEq, Repr

def toPublicProduct (p : Product) : PublicProduct :=
  { id := p.id, name := p.name, description := p.description,
    price := p.price, category := p.category, brand := p.brand,
    stock := p.stock, rating := p.rating, tags := p.tags,
    createdAt := p.createdAt }

/-- `filteredProducts.slice(startIndex, startIndex + limit)` with
`startIndex = (page - 1) * limit` (products.js lines 275-276). -/
def paginateList (l : List Product) (page limit : Nat) : List Product :=
  (l.drop ((page - 1) * limit)).take limit

/-- The JSON payload of the list endpoint (products.js lines 278-288).
The `nextPage`/`prevPage` URLs are environment-dependent strings; only
their nullness (page at a boundary) is modelled.  `status` is the HTTP
status of the response, 200 on the non-throwing path. -/
structure ListResponse where
  products : List PublicProduct
  currentPage : Nat
  totalPages : Nat
  totalItems : Nat
  itemsPerPage : Nat
  nextIsNull : Bool
  prevIsNull : Bool
  status : Nat
deriving DecidableEq, Repr

/-- The compute path of `router.get('/')` (products.js lines 206-297, cache
consultation aside): parameter clamping (lines 206-213), filtering,
the guarded stable sort (lines 271-273), slicing and response assembly.
`rawPage`/`rawLimit` are the integer query parameters (non-integers fall
back to the defaults before this point). -/
def computeList (ix : IndexState) (search category : Chars)
    (rawPage rawLimit : Int) (f : SortField) (o : SortOrder) : ListResponse :=
  let page : Nat := if 0 < rawPage then rawPage.toNat else 1
  let limit : Nat := (min (max rawLimit 1) 100).toNat
  let fp := filteredOf ix search category
  let sorted := if fp.length > 1 then orderByField fp f o else fp
  let sliced := paginateList sorted page limit
  let totalPages := (fp.length + limit - 1) / limit
  { products := sliced.map toPublicProduct,
    currentPage := page,
    totalPages := totalPages,
    totalItems := fp.length,
    itemsPerPage := limit,
    nextIsNull := decide (totalPages ≤ page),
    prevIsNull := decide (page ≤ 1),
    status := 200 }

/-- A cache entry (products.js lines 92-98): payload, headers (modelled by
the `X-Total-Count` value) and absolute expiry timestamp. -/
structure CacheEntry where
  payload : ListResponse
  totalCountHeader : Nat
  expiresAt : Nat
deriving DecidableEq, Repr

/-- The `responseCache` `Map` (products.js line 24), keyed by the cache-key
string. -/
abbrev Cache := List (Chars × CacheEntry)

/-- `responseCache.get(cacheKey)` with the lazy TTL check (products.js
lines 80-90): an entry whose expiry has passed is treated as absent (the
eager `delete` only affects later storage, not the returned value). -/
def getCachedResponse (cache : Cache) (key : Chars) (now : Nat) : Option CacheEntry :=
  match cache.find? (fun e => e.1 = key) with
  | none => none
  | some (_, e) => if e.expiresAt < now then none else some e

/-- `CACHE_TTL_MS` (products.js line 19). -/
def CACHE_TTL_MS : Nat := 30 * 1000

/-- `setCachedResponse` (products.js lines 92-98): `Map.set` replaces an
existing key in place or appends a new one. -/
def setCachedResponse (cache : Cache) (key : Chars) (payload : ListResponse)
    (totalCount now : Nat) : Cache :=
  let entry : CacheEntry :=
    { payload := payload, totalCountHeader := totalCount,
      expiresAt := now + CACHE_TTL_MS }
  match cache.find? (fun e => e.1 = key) with
  | some _ => cache.map (fun e => if e.1 = key then (key, entry) else e)
  | none => cache ++ [(key, entry)]

/-- The whole mutable module state: the index state and the response cache
(`products`, the four maps and `responseCache` of products.js lines 10-24). -/
structure AppState where
  ix : IndexState
  cache : Cache
deriving DecidableEq, Repr

/-- State after `buildIndexes(products)`: every mutation route ends with
this call, whose last line `responseCache.clear()` (products.js line 69)
unconditionally empties the cache. -/
def rebuildApp (l : List Product) : AppState :=
  { ix := buildIndexes l, cache := [] }

/-- `validator.escape` target characters: `& < > " ' / \` and backtick are
replaced by HTML entities.  (Written with character codes: 34 is the double
quote, 39 the apostrophe, 92 the backslash, 96 the backtick.) -/
def escapeHtmlChar (c : Char) : Chars :=
  if c = '&' then ['&', 'a', 'm', 'p', ';']
  else if c = '<' then ['&', 'l', 't', ';']
  else if c = '>' then ['&', 'g', 't', ';']
  else if c = Char.ofNat 34 then ['&', 'q', 'u', 'o', 't', ';']
  else if c = Char.ofNat 39 then ['&', '#', 'x', '2', '7', ';']
  else if c = '/' then ['&', '#', 'x', '2', 'F', ';']
  else if c = Char.ofNat 92 then ['&', '#', 'x', '5', 'C', ';']
  else if c = Char.ofNat 96 then ['&', '#', '9', '6', ';']
  else [c]

/-- `sanitizeText` (products.js lines 72-74):
`validator.escape(String(value || '').trim())`. -/
def sanitizeText (v : Chars) : Chars :=
  (trimWs v).flatMap escapeHtmlChar

/-- The body of a `POST /` create request after JSON parsing (products.js
lines 344-368).  Fields absent in JS are the `[]`/`0` they are defaulted to
by `|| ''` / `|| 0`; `price` and `stock` arrive as numbers. -/
structure CreateData where
  name : Chars
  description : Chars
  price : Int
  category : Chars
  brand : Chars
  stock : Int
  tags : List Chars
deriving DecidableEq, Repr

/-- `validateProductInput(productData)` with `partial = false`
(products.js lines 115-161), as the list of error messages being empty.
Message strings are immaterial; each conjunct mirrors one `errors.push`
guard. -/
def createDataValid (d : CreateData) : Bool :=
  (2 ≤ d.name.length && d.name.length ≤ 120) &&
  (d.description.length ≤ 500) &&
  (0 < d.price) &&
  (2 ≤ d.category.length && d.category.length ≤ 60) &&
  (d.brand.isEmpty || (2 ≤ d.brand.length && d.brand.length ≤ 60)) &&
  (0 ≤ d.stock)

/-- `router.post('/')` (products.js lines 341-382): validate, allocate
`max(existing ids) + 1`, build the stored record (note `rating: 0`), append
and rebuild.  `none` is the 400 validation-failure response. -/
def createProduct (st : AppState) (d : CreateData) (now : Nat) : Option AppState :=
  if createDataValid d then
    let ps := st.ix.products
    let newId := (ps.map Product.id).foldl max 0 + 1
    let newProduct : Product :=
      { id := newId,
        name := sanitizeText d.name,
        description := sanitizeText d.description,
        price := d.price,
        category := sanitizeText d.category,
        brand := sanitizeText d.brand,
        stock := d.stock.toNat,
        rating := 0,
        tags := d.tags.map sanitizeText,
        createdAt := now,
        costPrice := d.price,
        supplier := ['U', 'n', 'k', 'n', 'o', 'w', 'n'],
        internalNotes := [],
        adminOnly := false,
        searchableText := [] }
    some (rebuildApp (ps ++ [newProduct]))
  else none

/-- The body of a `PUT /:productId` request (products.js lines 389-415):
every updatable field is optional; absent fields leave the product alone.
`rating` is not an updatable field — the handler never reads it. -/
structure PatchData where
  name : Option Chars
  description : Option Chars
  price : Option Int
  category : Option Chars
  brand : Option Chars
  stock : Option Int
  tags : Option (List Chars)
deriving DecidableEq, Repr

/-- `validateProductInput(updateData, { partial: true })` (products.js
lines 115-161): each present field is checked by the same guard as on
create. -/
def patchDataValid (d : PatchData) : Bool :=
  (match d.name with
   | some n => 2 ≤ n.length && n.length ≤ 120
   | none => true) &&
  (match d.description with
   | some v => v.length ≤ 500
   | none => true) &&
  (match d.price with
   | some v => 0 < v
   | none => true) &&
  (match d.category with
   | some v => 2 ≤ v.length && v.length ≤ 60
   | none => true) &&
  (match d.brand with
   | some v => v.isEmpty || (2 ≤ v.length && v.length ≤ 60)
   | none => true) &&
  (match d.stock with
   | some v => 0 ≤ v
   | none => true)

/-- The sequence of conditional field assignments of the update handler
(products.js lines 406-415), starting from the spread copy
`{ ...products[productIndex] }`. -/
def applyPatch (p : Product) (u : PatchData) : Product :=
  let p1 := match u.name with
    | some v => { p with name := sanitizeText v }
    | none => p
  let p2 := match u.description with
    | some v => { p1 with description := sanitizeText v }
    | none => p1
  let p3 := match u.price with
    | some v => { p2 with price := v }
    | none => p2
  let p4 := match u.category with
    | some v => { p3 with category := sanitizeText v }
    | none => p3
  let p5 := match u.brand with
    | some v => { p4 with brand := sanitizeText v }
    | none => p4
  let p6 := match u.stock with
    | some v => { p5 with stock := v.toNat }
    | none => p5
  match u.tags with
  | some v => { p6 with tags := v.map sanitizeText }
  | none => p6

/-- `router.put('/:productId')` (products.js lines 385-429): validate the
patch, locate the product by id, replace it by the patched copy, rebuild.
`none` covers the 400 and 404 responses. -/
def updateProductOp (st : AppState) (pid : Nat) (u : PatchData) : Option AppState :=
  if patchDataValid u then
    let ps := st.ix.products
    let i := ps.findIdx (fun p => p.id = pid)
    match ps[i]? with
    | some pOld => some (rebuildApp (ps.set i (applyPatch pOld u)))
    | none => none
  else none

/-- `router.delete('/:productId')` (products.js lines 432-456): locate the
product by id, splice it out, rebuild.  `none` is the 404 response. -/
def deleteProductOp (st : AppState) (pid : Nat) : Option AppState :=
  let ps := st.ix.products
  let i := ps.findIdx (fun p => p.id = pid)
  if i < ps.length then some (rebuildApp (ps.eraseIdx i)) else none

/-- Character code 34, the double quote. -/
def dqChar : Char := Char.ofNat 34

/-- Character code 92, the backslash. -/
def bslChar : Char := Char.ofNat 92

/-- Character code 123, the opening curly brace. -/
def obChar : Char := Char.ofNat 123

/-- Character code 125, the closing curly brace. -/
def cbChar : Char := Char.ofNat 125

/-- Decimal digit character for `n < 10`. -/
def digitCh : Nat → Char
  | 0 => '0' | 1 => '1' | 2 => '2' | 3 => '3' | 4 => '4'
  | 5 => '5' | 6 => '6' | 7 => '7' | 8 => '8' | _ => '9'

/-- Lowercase hexadecimal digit character for `n < 16`, as emitted by
`JSON.stringify` in `\u00xx` escapes. -/
def hexCh : Nat → Char
  | 0 => '0' | 1 => '1' | 2 => '2' | 3 => '3' | 4 => '4'
  | 5 => '5' | 6 => '6' | 7 => '7' | 8 => '8' | 9 => '9'
  | 10 => 'a' | 11 => 'b' | 12 => 'c' | 13 => 'd' | 14 => 'e' | _ => 'f'

/-- Numeric value of a decimal or lowercase hexadecimal digit character. -/
def digitVal (c : Char) : Nat :=
  if c.isDigit then c.toNat - 48 else c.toNat - 87

/-- Decimal digit string of a natural, as `JSON.stringify` renders the
(non-negative integer) `page` and `limit` numbers. -/
def natToChars (n : Nat) : Chars :=
  if n < 10 then [digitCh n]
  else natToChars (n / 10) ++ [digitCh (n % 10)]
decreasing_by exact Nat.div_lt_self (by omega) (by omega)

/-- `JSON.stringify` escaping of one string character: double quote,
backslash, the named control escapes, `\u00xx` for the remaining control
characters, and every other character verbatim. -/
def jsonEscChar (c : Char) : Chars :=
  if c = dqChar then [bslChar, dqChar]
  else if c = bslChar then [bslChar, bslChar]
  else if c = Char.ofNat 8 then [bslChar, 'b']
  else if c = Char.ofNat 9 then [bslChar, 't']
  else if c = Char.ofNat 10 then [bslChar, 'n']
  else if c = Char.ofNat 12 then [bslChar, 'f']
  else if c = Char.ofNat 13 then [bslChar, 'r']
  else if c.toNat < 32 then
    [bslChar, 'u', '0', '0', hexCh (c.toNat / 16), hexCh (c.toNat % 16)]
  else [c]

/-- `JSON.stringify` rendering of a string body (without the surrounding
quotes). -/
def jsonEscape (s : Chars) : Chars :=
  s.flatMap jsonEscChar

/-- The parameter object built at products.js line 215:
`{ page, limit, search, category, sortBy, sortOrder }` with the clamped
numeric values, the raw `search`/`category` strings and the validated
sort parameters, always in this field order. -/
structure QueryParams where
  page : Nat
  limit : Nat
  search : Chars
  category : Chars
  sortBy : SortField
  sortOrder : SortOrder
deriving DecidableEq, Repr

/-- JSON field name of a `SortField` (the strings of products.js line 22). -/
def sortFieldChars : SortField → Chars
  | .name => ("name").data
  | .price => ("price").data
  | .category => ("category").data
  | .brand => ("brand").data
  | .stock => ("stock").data
  | .rating => ("rating").data
  | .createdAt => ("createdAt").data

/-- `'asc'` / `'desc'` (products.js line 213). -/
def sortOrderChars : SortOrder → Chars
  | .asc => ("asc").data
  | .desc => ("desc").data

def litPage : Chars := obChar :: dqChar :: ("page").data ++ [dqChar, ':']
def litLimit : Chars := ',' :: dqChar :: ("limit").data ++ [dqChar, ':']
def litSearch : Chars := ',' :: dqChar :: ("search").data ++ [dqChar, ':', dqChar]
def litCategory : Chars := ',' :: dqChar :: ("category").data ++ [dqChar, ':', dqChar]
def litSortBy : Chars := ',' :: dqChar :: ("sortBy").data ++ [dqChar, ':', dqChar]
def litSortOrder : Chars := ',' :: dqChar :: ("sortOrder").data ++ [dqChar, ':', dqChar]

/-- `getCacheKey` (products.js lines 76-78):
`JSON.stringify({ ...params })` for the fixed-field-order object of line
215 — the literal JSON text, character by character. -/
def getCacheKey (p : QueryParams) : Chars :=
  litPage ++ natToChars p.page ++
  litLimit ++ natToChars p.limit ++
  litSearch ++ jsonEscape p.search ++
  dqChar :: litCategory ++ jsonEscape p.category ++
  dqChar :: litSortBy ++ jsonEscape (sortFieldChars p.sortBy) ++
  dqChar :: litSortOrder ++ jsonEscape (sortOrderChars p.sortOrder) ++
  [dqChar, cbChar]

/-- Consume an expected literal from the front of the input. -/
def parseLit : Chars → Chars → Option Chars
  | [], input => some input
  | _ :: _, [] => none
  | c :: ls, d :: input => if c = d then parseLit ls input else none

/-- Greedily consume decimal digits, returning the accumulated value and
the rest of the input. -/
def parseDigitsAux : Chars → Nat → Nat × Chars
  | [], acc => (acc, [])
  | c :: cs, acc =>
    if c.isDigit then parseDigitsAux cs (acc * 10 + digitVal c)
    else (acc, c :: cs)

/-- Parse a decimal number (at least one digit). -/
def parseNatTok : Chars → Option (Nat × Chars)
  | [] => none
  | c :: cs => if c.isDigit then some (parseDigitsAux (c :: cs) 0) else none

/-- Inverse of the named control escapes in `jsonEscChar`. -/
def unescChar (e : Char) : Option Char :=
  if e = dqChar then some dqChar
  else if e = bslChar then some bslChar
  else if e = 'b' then some (Char.ofNat 8)
  else if e = 't' then some (Char.ofNat 9)
  else if e = 'n' then some (Char.ofNat 10)
  else if e = 'f' then some (Char.ofNat 12)
  else if e = 'r' then some (Char.ofNat 13)
  else none

/-- Whether a character is a lowercase-hex digit as emitted by `hexCh`. -/
def isHexCh (c : Char) : Bool :=
  c.isDigit || (97 ≤ c.toNat && c.toNat ≤ 102)

/-- Parse a JSON string body up to (and consuming) the closing quote. -/
def parseJStr (l : Chars) : Option (Chars × Chars) :=
  match l with
  | [] => none
  | c :: r =>
    if c = dqChar then some ([], r)
    else if c = bslChar then
      match r with
      | [] => none
      | e :: r2 =>
        if e = 'u' then
          match r2 with
          | z1 :: z2 :: h1 :: h2 :: r3 =>
            if z1 = '0' && z2 = '0' && isHexCh h1 && isHexCh h2 then
              match parseJStr r3 with
              | some (s, rest) =>
                some (Char.ofNat (16 * digitVal h1 + digitVal h2) :: s, rest)
              | none => none
            else none
          | _ => none
        else
          match unescChar e with
          | some u =>
            match parseJStr r2 with
            | some (s, rest) => some (u :: s, rest)
            | none => none
          | none => none
    else
      match parseJStr r with
      | some (s, rest) => some (c :: s, rest)
      | none => none
termination_by l.length
decreasing_by all_goals (simp_all [List.length]; try omega)

/-- Recover a `SortField` from its JSON name. -/
def sortFieldOfChars (l : Chars) : Option SortField :=
  if l = ("name").data then some .name
  else if l = ("price").data then some .price
  else if l = ("category").data then some .category
  else if l = ("brand").data then some .brand
  else if l = ("stock").data then some .stock
  else if l = ("rating").data then some .rating
  else if l = ("createdAt").data then some .createdAt
  else none

/-- Recover a `SortOrder` from its JSON name. -/
def sortOrderOfChars (l : Chars) : Option SortOrder :=
  if l = ("asc").data then some .asc
  else if l = ("desc").data then some .desc
  else none

/-- Full parser for the cache-key format: witnesses that `getCacheKey` is
an unambiguous (hence injective) serialization of the parameter tuple. -/
def parseKey (l : Chars) : Option QueryParams :=
  (parseLit litPage l).bind fun r1 =>
  (parseNatTok r1).bind fun pr1 =>
  (parseLit litLimit pr1.2).bind fun r3 =>
  (parseNatTok r3).bind fun pr2 =>
  (parseLit litSearch pr2.2).bind fun r5 =>
  (parseJStr r5).bind fun pr3 =>
  (parseLit litCategory pr3.2).bind fun r7 =>
  (parseJStr r7).bind fun pr4 =>
  (parseLit litSortBy pr4.2).bind fun r9 =>
  (parseJStr r9).bind fun pr5 =>
  (parseLit litSortOrder pr5.2).bind fun r11 =>
  (parseJStr r11).bind fun pr6 =>
  if pr6.2 = [cbChar] then
    (sortFieldOfChars pr5.1).bind fun sb =>
    (sortOrderOfChars pr6.1).bind fun so =>
    some ⟨pr1.1, pr2.1, pr3.1, pr4.1, sb, so⟩
  else none

/-- The full list handler `router.get('/')` (products.js lines 203-303):
clamp parameters, build the cache key from the clamped values and the raw
`search`/`category` strings (line 215), serve a fresh cached entry, or
compute, store and serve.  Returns the response together with the new
application state. -/
def handleList (st : AppState) (search category : Chars)
    (rawPage rawLimit : Int) (f : SortField) (o : SortOrder) (now : Nat) :
    ListResponse × AppState :=
  let page : Nat := if 0 < rawPage then rawPage.toNat else 1
  let limit : Nat := (min (max rawLimit 1) 100).toNat
  let key := getCacheKey ⟨page, limit, search, category, f, o⟩
  match getCachedResponse st.cache key now with
  | some e => (e.payload, st)
  | none =>
    let resp := computeList st.ix search category rawPage rawLimit f o
    (resp, { st with cache := setCachedResponse st.cache key resp resp.totalItems now })

/-- A one-product catalog used for concrete evaluations: the product
"Rose" / "nice" in category "Books". -/
def pRose : Product :=
  { id := 1, name := ['R', 'o', 's', 'e'], description := ['n', 'i', 'c', 'e'],
    price := 10, category := ['B', 'o', 'o', 'k', 's'], brand := [],
    stock := 0, rating := 0, tags := [], createdAt := 0, costPrice := 7,
    supplier := [], internalNotes := [], adminOnly := false,
    searchableText := [] }

/-- A one-product catalog used for concrete evaluations: the product
"Ab" / "cd" in category "Books" (its searchable text "ab cd" contains no
punctuation). -/
def pAb : Product :=
  { id := 1, name := ['A', 'b'], description := ['c', 'd'],
    price := 10, category := ['B', 'o', 'o', 'k', 's'], brand := [],
    stock := 0, rating := 0, tags := [], createdAt := 0, costPrice := 7,
    supplier := [], internalNotes := [], adminOnly := false,
    searchableText := [] }

def stRose : IndexState := buildIndexes [pRose]

def stAb : IndexState := buildIndexes [pAb]

/-- An application state holding one (unexpired, far-future) cache entry,
used to exercise the mutation routes. -/
def appWithCache : AppState :=
  { ix := stAb,
    cache := [(['k'],
      { payload :=
          { products := [], currentPage := 1, totalPages := 0,
            totalItems := 0, itemsPerPage := 25, nextIsNull := true,
            prevIsNull := true, status := 200 },
        totalCountHeader := 0, expiresAt := 1000000 })] }

/-- A well-formed create payload. -/
def cdOk : CreateData :=
  { name := ['N', 'e', 'w', 'P'], description := [], price := 5,
    category := ['B', 'o', 'o', 'k', 's'], brand := [], stock := 0,
    tags := [] }

/-- A patch that only changes the price. -/
def patchPrice : PatchData :=
  { name := none, description := none, price := some 42, category := none,
    brand := none, stock := none, tags := none }

theorem toNat_ofNatAux (n : Nat) (h : n.isValidChar) :
    (Char.ofNatAux n h).toNat = n := by
  have hlt : n < 1114112 := by
    rcases h with h | ⟨_, h2⟩ <;> omega
  simp [Char.ofNatAux, Char.toNat, UInt32.toNat, BitVec.toNat_ofNat]

theorem toNat_ofNat_small (n : Nat) (h : n < 55296) :
    (Char.ofNat n).toNat = n := by
  unfold Char.ofNat
  rw [dif_pos (Or.inl h)]
  exact toNat_ofNatAux n (Or.inl h)

theorem toLower_toLower (c : Char) : c.toLower.toLower = c.toLower := by
  by_cases h : c.toNat ≥ 65 ∧ c.toNat ≤ 90
  · have hv : (Char.ofNat (c.toNat + 32)).toNat = c.toNat + 32 :=
      toNat_ofNat_small _ (by omega)
    have h2 : c.toLower = Char.ofNat (c.toNat + 32) := by
      unfold Char.toLower
      rw [if_pos h]
    rw [h2]
    unfold Char.toLower
    rw [if_neg (by intro hc; rw [hv] at hc; omega)]
  · have h2 : c.toLower = c := by
      unfold Char.toLower
      rw [if_neg h]
    rw [h2, h2]

theorem toLower_of_ws (c : Char) (h : c.isWhitespace = true) :
    c.toLower = c := by
  simp only [Char.isWhitespace, Bool.or_eq_true, decide_eq_true_eq] at h
  rcases h with ((rfl | rfl) | rfl) | rfl <;> decide

theorem leadsWith_iff (p t : Chars) :
    leadsWith p t = true ↔ ∃ r, t = p ++ r := by
  induction p generalizing t with
  | nil => simp [leadsWith]
  | cons a ps ih =>
    cases t with
    | nil =>
      constructor
      · intro h; simp [leadsWith] at h
      · rintro ⟨r, h⟩; simp at h
    | cons b ts =>
      simp only [leadsWith, Bool.and_eq_true, decide_eq_true_eq, ih]
      constructor
      · rintro ⟨rfl, r, rfl⟩
        exact ⟨r, rfl⟩
      · rintro ⟨r, h⟩
        rw [List.cons_append] at h
        injection h with h1 h2
        exact ⟨h1.symm, r, h2⟩

theorem hasSub_iff (p t : Chars) : hasSub p t = true ↔ OccursIn p t := by
  induction t with
  | nil =>
    simp only [hasSub, leadsWith_iff, OccursIn]
    constructor
    · rintro ⟨r, h⟩
      exact ⟨[], r, by simp [h]⟩
    · rintro ⟨a, b, h⟩
      cases a with
      | nil => exact ⟨b, by simpa using h⟩
      | cons x xs => simp at h
  | cons c ts ih =>
    simp only [hasSub, Bool.or_eq_true, leadsWith_iff, ih, OccursIn]
    constructor
    · rintro (⟨r, h⟩ | ⟨a, b, h⟩)
      · exact ⟨[], r, by simp [h]⟩
      · exact ⟨c :: a, b, by simp [h]⟩
    · rintro ⟨a, b, h⟩
      cases a with
      | nil => exact Or.inl ⟨b, by simpa using h⟩
      | cons x xs =>
        right
        refine ⟨xs, b, ?_⟩
        have h1 := congrArg List.tail h
        simpa using h1

theorem occursIn_trans {a b c : Chars} (h1 : OccursIn a b) (h2 : OccursIn b c) :
    OccursIn a c := by
  obtain ⟨x, y, rfl⟩ := h1
  obtain ⟨u, v, rfl⟩ := h2
  exact ⟨u ++ x, y ++ v, by simp⟩

theorem occursIn_refl (a : Chars) : OccursIn a a := ⟨[], [], by simp⟩

theorem mem_of_occursIn {p t : Chars} (h : OccursIn p t) {c : Char}
    (hc : c ∈ p) : c ∈ t := by
  obtain ⟨a, b, rfl⟩ := h
  simp [hc]

theorem mem_getTrigrams_sub {w l : Chars} (h : w ∈ getTrigrams l) :
    w.length = 3 ∧ OccursIn w l := by
  induction l with
  | nil => simp [getTrigrams] at h
  | cons a rest ih =>
    cases rest with
    | nil => simp [getTrigrams] at h
    | cons b rest2 =>
      cases rest2 with
      | nil => simp [getTrigrams] at h
      | cons c r =>
        rw [getTrigrams] at h
        rcases List.mem_cons.mp h with rfl | h
        · exact ⟨rfl, ⟨[], r, rfl⟩⟩
        · obtain ⟨h3, x, y, hxy⟩ := ih h
          exact ⟨h3, ⟨a :: x, y, by rw [hxy]; rfl⟩⟩

theorem getTrigrams_cons_sup {w : Chars} {d : Char} {l : Chars}
    (h : w ∈ getTrigrams l) : w ∈ getTrigrams (d :: l) := by
  cases l with
  | nil => simp [getTrigrams] at h
  | cons b rest =>
    cases rest with
    | nil => simp [getTrigrams] at h
    | cons c r =>
      rw [getTrigrams]
      exact List.mem_cons_of_mem _ h

theorem occursIn_mem_getTrigrams {w l : Chars} (h : OccursIn w l)
    (h3 : w.length = 3) : w ∈ getTrigrams l := by
  obtain ⟨a, b, rfl⟩ := h
  obtain ⟨x, y, z, rfl⟩ : ∃ x y z, w = [x, y, z] := by
    cases w with
    | nil => simp at h3
    | cons x w1 =>
      cases w1 with
      | nil => simp at h3
      | cons y w2 =>
        cases w2 with
        | nil => simp at h3
        | cons z w3 =>
          cases w3 with
          | nil => exact ⟨x, y, z, rfl⟩
          | cons u w4 => simp at h3
  induction a with
  | nil =>
    have he : ([] : Chars) ++ [x, y, z] ++ b = x :: y :: z :: b := by simp
    rw [he, getTrigrams]
    exact List.mem_cons_self _ _
  | cons d a' ih =>
    have he : (d :: a') ++ [x, y, z] ++ b = d :: (a' ++ [x, y, z] ++ b) := by simp
    rw [he]
    exact getTrigrams_cons_sup ih

theorem getTrigrams_ne_nil {l : Chars} (h : 3 ≤ l.length) :
    getTrigrams l ≠ [] := by
  cases l with
  | nil => simp at h
  | cons a rest =>
    cases rest with
    | nil => simp at h
    | cons b rest2 =>
      cases rest2 with
      | nil => simp at h
      | cons c r => rw [getTrigrams]; simp

theorem occursIn_append_left {w t : Chars} (s : Chars) (h : OccursIn w t) :
    OccursIn w (s ++ t) := by
  obtain ⟨a, b, rfl⟩ := h
  exact ⟨s ++ a, b, by simp⟩

theorem occursIn_append_right {w t : Chars} (s : Chars) (h : OccursIn w t) :
    OccursIn w (t ++ s) := by
  obtain ⟨a, b, rfl⟩ := h
  exact ⟨a, b ++ s, by simp⟩

theorem occursIn_cons {w t : Chars} (c : Char) (h : OccursIn w t) :
    OccursIn w (c :: t) := by
  obtain ⟨a, b, rfl⟩ := h
  exact ⟨c :: a, b, by simp⟩

theorem tokensAux_occursIn {w : Chars} :
    ∀ {t cur : Chars}, w ∈ tokensAux cur t → OccursIn w (cur.reverse ++ t) := by
  intro t
  induction t with
  | nil =>
    intro cur h
    rw [tokensAux] at h
    by_cases hc : cur.isEmpty
    · simp [hc] at h
    · rw [if_neg hc] at h
      rcases List.mem_singleton.mp h with rfl
      exact ⟨[], [], by simp⟩
  | cons c r ih =>
    intro cur h
    rw [tokensAux] at h
    by_cases ha : c.isAlphanum
    · rw [if_pos ha] at h
      have := ih h
      simpa using this
    · rw [if_neg ha] at h
      by_cases hc : cur.isEmpty
      · rw [if_pos hc] at h
        have hcur : cur = [] := by cases cur <;> simp_all
        subst hcur
        simpa using occursIn_cons c (by simpa using ih h)
      · rw [if_neg hc] at h
        rcases List.mem_cons.mp h with rfl | h
        · exact ⟨[], c :: r, by simp⟩
        · have := occursIn_cons c (by simpa using ih h)
          exact occursIn_append_left cur.reverse this

theorem tokensAux_alnum {w : Chars} :
    ∀ {t cur : Chars}, w ∈ tokensAux cur t →
      (∀ c ∈ cur, c.isAlphanum = true) → ∀ c ∈ w, c.isAlphanum = true := by
  intro t
  induction t with
  | nil =>
    intro cur h hcur
    rw [tokensAux] at h
    by_cases hc : cur.isEmpty
    · simp [hc] at h
    · rw [if_neg hc] at h
      rcases List.mem_singleton.mp h with rfl
      intro c hcmem
      exact hcur c (by simpa using hcmem)
  | cons c r ih =>
    intro cur h hcur
    rw [tokensAux] at h
    by_cases ha : c.isAlphanum
    · rw [if_pos ha] at h
      exact ih h (by
        intro x hx
        rcases List.mem_cons.mp hx with rfl | hx
        · exact ha
        · exact hcur x hx)
    · rw [if_neg ha] at h
      by_cases hc : cur.isEmpty
      · rw [if_pos hc] at h
        exact ih h (by simp)
      · rw [if_neg hc] at h
        rcases List.mem_cons.mp h with rfl | h
        · intro x hx
          exact hcur x (by simpa using hx)
        · exact ih h (by simp)

theorem tokensAux_of_all_alnum :
    ∀ {t : Chars}, (∀ c ∈ t, c.isAlphanum = true) → ∀ {cur : Chars},
      tokensAux cur t =
        if (cur.reverse ++ t).isEmpty then [] else [cur.reverse ++ t] := by
  intro t
  induction t with
  | nil =>
    intro _ cur
    rw [tokensAux]
    by_cases hc : cur.isEmpty
    · have hcur : cur = [] := by cases cur <;> simp_all
      subst hcur
      simp
    · rw [if_neg hc]
      have : cur ≠ [] := by cases cur <;> simp_all
      have h2 : (cur.reverse ++ ([] : Chars)).isEmpty = false := by
        cases cur <;> simp_all
      rw [h2]
      simp
  | cons c r ih =>
    intro hall cur
    rw [tokensAux, if_pos (hall c (by simp))]
    rw [ih (fun x hx => hall x (List.mem_cons_of_mem _ hx))]
    have he1 : ((c :: cur).reverse ++ r) = cur.reverse ++ (c :: r) := by simp
    rw [he1]

theorem getWords_of_all_alnum {t : Chars} (h : ∀ c ∈ t, c.isAlphanum = true)
    (h2 : 2 ≤ t.length) : getWords t = [t] := by
  unfold getWords
  rw [tokensAux_of_all_alnum h]
  have : (([] : Chars).reverse ++ t).isEmpty = false := by
    cases t with
    | nil => simp at h2
    | cons a r => simp
  rw [this]
  have h3 : 1 < t.length := by omega
  simp [h3]

theorem mem_getWords_facts {w t : Chars} (h : w ∈ getWords t) :
    OccursIn w t ∧ 2 ≤ w.length ∧ ∀ c ∈ w, c.isAlphanum = true := by
  unfold getWords at h
  have hm := List.mem_filter.mp h
  refine ⟨by simpa using tokensAux_occursIn hm.1, by
    have := hm.2; simp at this; omega,
    tokensAux_alnum hm.1 (by simp)⟩

theorem mem_squeezeWs {c : Char} :
    ∀ {l : Chars}, c ∈ squeezeWs l → c = ' ' ∨ c ∈ l := by
  intro l
  induction l with
  | nil => intro h; simp [squeezeWs] at h
  | cons a rest ih =>
    cases rest with
    | nil =>
      intro h
      rw [squeezeWs] at h
      rcases List.mem_singleton.mp h with rfl
      by_cases hw : a.isWhitespace
      · simp [hw]
      · simp [hw]
    | cons d r =>
      intro h
      rw [squeezeWs] at h
      by_cases hw : a.isWhitespace && d.isWhitespace
      · rw [if_pos hw] at h
        rcases ih h with h' | h'
        · exact Or.inl h'
        · exact Or.inr (List.mem_cons_of_mem _ h')
      · rw [if_neg hw] at h
        rcases List.mem_cons.mp h with rfl | h
        · by_cases hw2 : a.isWhitespace
          · simp [hw2]
          · simp [hw2]
        · rcases ih h with h' | h'
          · exact Or.inl h'
          · exact Or.inr (List.mem_cons_of_mem _ h')

theorem mem_squeezeWs_ws {c : Char} :
    ∀ {l : Chars}, c ∈ squeezeWs l → c.isWhitespace = true → c = ' ' := by
  intro l
  induction l with
  | nil => intro h _; simp [squeezeWs] at h
  | cons a rest ih =>
    cases rest with
    | nil =>
      intro h hws
      rw [squeezeWs] at h
      rcases List.mem_singleton.mp h with rfl
      by_cases hw : a.isWhitespace
      · simp [hw]
      · simp only [if_neg hw] at hws ⊢
        exact absurd hws (by simp [hw])
    | cons d r =>
      intro h hws
      rw [squeezeWs] at h
      by_cases hw : a.isWhitespace && d.isWhitespace
      · rw [if_pos hw] at h
        exact ih h hws
      · rw [if_neg hw] at h
        rcases List.mem_cons.mp h with rfl | h
        · by_cases hw2 : a.isWhitespace
          · simp [hw2]
          · simp only [if_neg hw2] at hws
            exact absurd hws (by simp [hw2])
        · exact ih h hws

theorem squeezeWs_cons_head :
    ∀ (r : Chars) (d : Char), ∃ t,
      squeezeWs (d :: r) = (if d.isWhitespace then ' ' else d) :: t := by
  intro r
  induction r with
  | nil => intro d; exact ⟨[], rfl⟩
  | cons e r' ih =>
    intro d
    rw [squeezeWs]
    by_cases hw : d.isWhitespace && e.isWhitespace
    · rw [if_pos hw]
      obtain ⟨t, ht⟩ := ih e
      refine ⟨t, ?_⟩
      rw [ht]
      have hd : d.isWhitespace = true := by
        rcases Bool.and_eq_true_iff.mp hw with ⟨h1, _⟩; exact h1
      have he : e.isWhitespace = true := by
        rcases Bool.and_eq_true_iff.mp hw with ⟨_, h2⟩; exact h2
      rw [if_pos hd, if_pos he]
    · rw [if_neg hw]
      exact ⟨squeezeWs (e :: r'), rfl⟩

theorem chain'_squeezeWs :
    ∀ (l : Chars), List.Chain'
      (fun a b => ¬(a.isWhitespace = true ∧ b.isWhitespace = true))
      (squeezeWs l) := by
  intro l
  induction l with
  | nil => simp [squeezeWs]
  | cons a rest ih =>
    cases rest with
    | nil => rw [squeezeWs]; exact List.chain'_singleton _
    | cons d r =>
      rw [squeezeWs]
      by_cases hw : a.isWhitespace && d.isWhitespace
      · rw [if_pos hw]; exact ih
      · rw [if_neg hw]
        obtain ⟨t, ht⟩ := squeezeWs_cons_head r d
        rw [ht]
        rw [ht] at ih
        refine List.chain'_cons.mpr ⟨?_, ih⟩
        rintro ⟨h1, h2⟩
        by_cases ha : a.isWhitespace = true
        · by_cases hd : d.isWhitespace = true
          · exact hw (by simp [ha, hd])
          · rw [if_neg hd] at h2
            exact hd h2
        · rw [if_neg ha] at h1
          exact ha h1

theorem occursIn_trimWs (l : Chars) : OccursIn (trimWs l) l := by
  refine ⟨l.takeWhile Char.isWhitespace,
    ((l.dropWhile Char.isWhitespace).reverse.takeWhile Char.isWhitespace).reverse, ?_⟩
  have h4 : l.dropWhile Char.isWhitespace =
      trimWs l ++
      ((l.dropWhile Char.isWhitespace).reverse.takeWhile Char.isWhitespace).reverse := by
    unfold trimWs
    conv_lhs => rw [← List.reverse_reverse (l.dropWhile Char.isWhitespace)]
    conv_lhs => rw [← List.takeWhile_append_dropWhile (p := Char.isWhitespace)
      (l := (l.dropWhile Char.isWhitespace).reverse)]
    rw [List.reverse_append]
  exact ((List.takeWhile_append_dropWhile _ _).symm.trans
    (congrArg (fun z => l.takeWhile Char.isWhitespace ++ z) h4)).trans
    (List.append_assoc _ _ _).symm

theorem mem_trimWs {c : Char} {l : Chars} (h : c ∈ trimWs l) : c ∈ l :=
  mem_of_occursIn (occursIn_trimWs l) h

theorem chain'_of_occursIn {P : Char → Char → Prop} {t s : Chars}
    (hc : List.Chain' P t) (ho : OccursIn s t) : List.Chain' P s := by
  obtain ⟨a, b, rfl⟩ := ho
  rw [List.append_assoc] at hc
  have h1 := (List.chain'_append.mp hc).2.1
  exact (List.chain'_append.mp h1).1

theorem mem_normalizeText {c : Char} {s : Chars} (h : c ∈ normalizeText s) :
    c.toLower = c ∧ (c.isWhitespace = true → c = ' ') := by
  unfold normalizeText at h
  have h1 : c ∈ squeezeWs (s.map Char.toLower) := mem_trimWs h
  constructor
  · rcases mem_squeezeWs h1 with rfl | h2
    · decide
    · obtain ⟨c0, _, rfl⟩ := List.mem_map.mp h2
      exact toLower_toLower c0
  · exact mem_squeezeWs_ws h1

theorem chain'_normalizeText (s : Chars) :
    List.Chain' (fun a b => ¬(a.isWhitespace = true ∧ b.isWhitespace = true))
      (normalizeText s) :=
  chain'_of_occursIn (chain'_squeezeWs (s.map Char.toLower))
    (occursIn_trimWs (squeezeWs (s.map Char.toLower)))

theorem squeezeWs_eq_self :
    ∀ {l : Chars}, (∀ c ∈ l, c.isWhitespace = true → c = ' ') →
      List.Chain' (fun a b => ¬(a.isWhitespace = true ∧ b.isWhitespace = true)) l →
      squeezeWs l = l := by
  intro l
  induction l with
  | nil => intro _ _; rfl
  | cons a rest ih =>
    cases rest with
    | nil =>
      intro h1 _
      rw [squeezeWs]
      by_cases hw : a.isWhitespace = true
      · rw [if_pos hw, h1 a (by simp) hw]
      · rw [if_neg hw]
    | cons d r =>
      intro h1 h2
      rw [squeezeWs]
      have hnd : ¬(a.isWhitespace = true ∧ d.isWhitespace = true) :=
        (List.chain'_cons.mp h2).1
      rw [if_neg (by
        intro hb
        rcases Bool.and_eq_true_iff.mp hb with ⟨x, y⟩
        exact hnd ⟨x, y⟩)]
      have htail := ih (fun c hc hw => h1 c (List.mem_cons_of_mem _ hc) hw)
        (List.chain'_cons.mp h2).2
      rw [htail]
      by_cases hw : a.isWhitespace = true
      · rw [if_pos hw, h1 a (by simp) hw]
      · rw [if_neg hw]

theorem map_toLower_eq_self {l : Chars} (h : ∀ c ∈ l, c.toLower = c) :
    l.map Char.toLower = l := by
  induction l with
  | nil => rfl
  | cons a rest ih =>
    rw [List.map_cons, h a (by simp), ih (fun c hc => h c (List.mem_cons_of_mem _ hc))]

theorem normalizeText_of_occursIn {q s : Chars}
    (h : OccursIn q (normalizeText s)) : normalizeText q = trimWs q := by
  have hmem : ∀ c ∈ q, c ∈ normalizeText s := fun c hc => mem_of_occursIn h hc
  unfold normalizeText
  rw [map_toLower_eq_self (fun c hc => (mem_normalizeText (hmem c hc)).1)]
  rw [squeezeWs_eq_self (fun c hc hw => (mem_normalizeText (hmem c hc)).2 hw)
    (chain'_of_occursIn (chain'_normalizeText s) h)]

theorem occursIn_normalize_of_occursIn {q s : Chars}
    (h : OccursIn q (normalizeText s)) :
    OccursIn (normalizeText q) (normalizeText s) := by
  rw [normalizeText_of_occursIn h]
  exact occursIn_trans (occursIn_trimWs q) h

theorem findIdx_addToIndex (m : Index) (k : Chars) (i : Nat) (k' : Chars) :
    findIdx (addToIndex m k i) k' =
      if k' = k then (if i ∈ findIdx m k then findIdx m k else findIdx m k ++ [i])
      else findIdx m k' := by
  induction m with
  | nil =>
    by_cases h : k' = k
    · subst h
      simp [addToIndex, findIdx]
    · have h2 : ¬(k = k') := fun he => h he.symm
      simp [addToIndex, findIdx, h, h2]
  | cons e rest ih =>
    obtain ⟨k0, s0⟩ := e
    by_cases h0 : k0 = k
    · subst h0
      by_cases h1 : k' = k0
      · subst h1
        simp [addToIndex, findIdx]
      · have h2 : ¬(k0 = k') := fun he => h1 he.symm
        simp [addToIndex, findIdx, h1, h2]
    · by_cases h1 : k0 = k'
      · subst h1
        simp [addToIndex, findIdx, h0]
      · simp [addToIndex, findIdx, h0, h1, ih]

theorem mem_findIdx_addToIndex {j : Nat} (m : Index) (k : Chars) (i : Nat)
    (k' : Chars) :
    j ∈ findIdx (addToIndex m k i) k' ↔
      (k' = k ∧ j = i) ∨ j ∈ findIdx m k' := by
  rw [findIdx_addToIndex]
  by_cases h : k' = k
  · subst h
    rw [if_pos rfl]
    by_cases hm : i ∈ findIdx m k'
    · rw [if_pos hm]
      constructor
      · intro hj
        exact Or.inr hj
      · intro hj
        rcases hj with ⟨_, rfl⟩ | hj
        · exact hm
        · exact hj
    · rw [if_neg hm]
      constructor
      · intro hj
        rcases List.mem_append.mp hj with hj | hj
        · exact Or.inr hj
        · rcases List.mem_singleton.mp hj with rfl
          exact Or.inl ⟨rfl, rfl⟩
      · intro hj
        rcases hj with ⟨_, rfl⟩ | hj
        · exact List.mem_append.mpr (Or.inr (List.mem_singleton.mpr rfl))
        · exact List.mem_append.mpr (Or.inl hj)
  · rw [if_neg h]
    constructor
    · intro hj
      exact Or.inr hj
    · intro hj
      rcases hj with ⟨rfl, _⟩ | hj
      · exact absurd rfl h
      · exact hj

theorem mem_findIdx_foldl_add {j : Nat} (i : Nat) :
    ∀ (ws : List Chars) (m : Index) (k : Chars),
      j ∈ findIdx (ws.foldl (fun m' w => addToIndex m' w i) m) k ↔
        (k ∈ ws ∧ j = i) ∨ j ∈ findIdx m k := by
  intro ws
  induction ws with
  | nil => intro m k; simp
  | cons w ws' ih =>
    intro m k
    rw [List.foldl_cons, ih, mem_findIdx_addToIndex]
    constructor
    · rintro (⟨hk, rfl⟩ | (⟨rfl, rfl⟩ | hj))
      · exact Or.inl ⟨List.mem_cons_of_mem _ hk, rfl⟩
      · exact Or.inl ⟨List.mem_cons_self _ _, rfl⟩
      · exact Or.inr hj
    · rintro (⟨hk, rfl⟩ | hj)
      · rcases List.mem_cons.mp hk with rfl | hk'
        · exact Or.inr (Or.inl ⟨rfl, rfl⟩)
        · exact Or.inl ⟨hk', rfl⟩
      · exact Or.inr (Or.inr hj)

theorem products_foldl_indexStep :
    ∀ (l : List Product) (st : IndexState),
      (l.foldl indexStep st).products = st.products ++ l.map refresh := by
  intro l
  induction l with
  | nil => intro st; simp
  | cons p l' ih =>
    intro st
    rw [List.foldl_cons, ih]
    show (st.products ++ [refresh p]) ++ l'.map refresh = _
    simp

theorem buildIndexes_products (l : List Product) :
    (buildIndexes l).products = l.map refresh := by
  unfold buildIndexes
  rw [products_foldl_indexStep]
  rfl

theorem mem_wordIdx_foldl {j : Nat} {k : Chars} :
    ∀ (l : List Product) (st : IndexState),
      j ∈ findIdx (l.foldl indexStep st).wordIdx k ↔
        (∃ p ∈ l, p.id = j ∧ k ∈ getWords (refresh p).searchableText) ∨
          j ∈ findIdx st.wordIdx k := by
  intro l
  induction l with
  | nil => intro st; simp
  | cons p l' ih =>
    intro st
    rw [List.foldl_cons, ih]
    have hstep : (indexStep st p).wordIdx =
        (getWords (refresh p).searchableText).foldl
          (fun m w => addToIndex m w p.id) st.wordIdx := rfl
    rw [hstep, mem_findIdx_foldl_add]
    constructor
    · rintro (⟨q, hq, rfl, hk⟩ | (⟨hk, rfl⟩ | hj))
      · exact Or.inl ⟨q, List.mem_cons_of_mem _ hq, rfl, hk⟩
      · exact Or.inl ⟨p, List.mem_cons_self _ _, rfl, hk⟩
      · exact Or.inr hj
    · rintro (⟨q, hq, rfl, hk⟩ | hj)
      · rcases List.mem_cons.mp hq with rfl | hq'
        · exact Or.inr (Or.inl ⟨hk, rfl⟩)
        · exact Or.inl ⟨q, hq', rfl, hk⟩
      · exact Or.inr (Or.inr hj)

theorem mem_triIdx_foldl {j : Nat} {k : Chars} :
    ∀ (l : List Product) (st : IndexState),
      j ∈ findIdx (l.foldl indexStep st).triIdx k ↔
        (∃ p ∈ l, p.id = j ∧ k ∈ getTrigrams (refresh p).searchableText) ∨
          j ∈ findIdx st.triIdx k := by
  intro l
  induction l with
  | nil => intro st; simp
  | cons p l' ih =>
    intro st
    rw [List.foldl_cons, ih]
    have hstep : (indexStep st p).triIdx =
        (getTrigrams (refresh p).searchableText).foldl
          (fun m w => addToIndex m w p.id) st.triIdx := rfl
    rw [hstep, mem_findIdx_foldl_add]
    constructor
    · rintro (⟨q, hq, rfl, hk⟩ | (⟨hk, rfl⟩ | hj))
      · exact Or.inl ⟨q, List.mem_cons_of_mem _ hq, rfl, hk⟩
      · exact Or.inl ⟨p, List.mem_cons_self _ _, rfl, hk⟩
      · exact Or.inr hj
    · rintro (⟨q, hq, rfl, hk⟩ | hj)
      · rcases List.mem_cons.mp hq with rfl | hq'
        · exact Or.inr (Or.inl ⟨hk, rfl⟩)
        · exact Or.inl ⟨q, hq', rfl, hk⟩
      · exact Or.inr (Or.inr hj)

theorem mem_catIdx_foldl {j : Nat} {k : Chars} :
    ∀ (l : List Product) (st : IndexState),
      j ∈ findIdx (l.foldl indexStep st).catIdx k ↔
        (∃ p ∈ l, p.id = j ∧ p.category = k) ∨ j ∈ findIdx st.catIdx k := by
  intro l
  induction l with
  | nil => intro st; simp
  | cons p l' ih =>
    intro st
    rw [List.foldl_cons, ih]
    have hstep : (indexStep st p).catIdx =
        addToIndex st.catIdx p.category p.id := rfl
    rw [hstep, mem_findIdx_addToIndex]
    constructor
    · rintro (⟨q, hq, rfl, hk⟩ | (⟨rfl, rfl⟩ | hj))
      · exact Or.inl ⟨q, List.mem_cons_of_mem _ hq, rfl, hk⟩
      · exact Or.inl ⟨p, List.mem_cons_self _ _, rfl, rfl⟩
      · exact Or.inr hj
    · rintro (⟨q, hq, rfl, rfl⟩ | hj)
      · rcases List.mem_cons.mp hq with rfl | hq'
        · exact Or.inr (Or.inl ⟨rfl, rfl⟩)
        · exact Or.inl ⟨q, hq', rfl, rfl⟩
      · exact Or.inr (Or.inr hj)

theorem findById_setById (m : ById) (j : Nat) (q : Product) (i : Nat) :
    findById (setById m j q) i = if i = j then some q else findById m i := by
  induction m with
  | nil =>
    by_cases h : i = j
    · subst h
      simp [setById, findById]
    · have h2 : ¬(j = i) := fun he => h he.symm
      simp [setById, findById, h, h2]
  | cons e rest ih =>
    obtain ⟨j0, q0⟩ := e
    by_cases h0 : j0 = j
    · subst h0
      by_cases h1 : i = j0
      · subst h1
        simp [setById, findById]
      · have h2 : ¬(j0 = i) := fun he => h1 he.symm
        simp [setById, findById, h1, h2]
    · by_cases h1 : j0 = i
      · subst h1
        have h2 : ¬(j0 = j) := h0
        simp [setById, findById, h0, h2]
      · simp [setById, findById, h0, h1, ih]

theorem findById_foldl_frame {i : Nat} :
    ∀ (l : List Product) (st : IndexState), i ∉ l.map Product.id →
      findById (l.foldl indexStep st).byId i = findById st.byId i := by
  intro l
  induction l with
  | nil => intro st _; rfl
  | cons p l' ih =>
    intro st hmem
    rw [List.foldl_cons]
    rw [ih _ (fun hc => hmem (by
      rw [List.map_cons]
      exact List.mem_cons_of_mem _ hc))]
    have hstep : (indexStep st p).byId = setById st.byId p.id (refresh p) := rfl
    rw [hstep, findById_setById]
    rw [if_neg (fun he => hmem (by
      rw [List.map_cons, he]
      exact List.mem_cons_self _ _))]

theorem findById_foldl_mem {p : Product} :
    ∀ (l : List Product) (st : IndexState), (l.map Product.id).Nodup →
      p ∈ l → findById (l.foldl indexStep st).byId p.id = some (refresh p) := by
  intro l
  induction l with
  | nil => intro st _ hm; simp at hm
  | cons q l' ih =>
    intro st hnd hm
    rw [List.map_cons] at hnd
    rcases List.mem_cons.mp hm with rfl | hm'
    · rw [List.foldl_cons]
      rw [findById_foldl_frame _ _ (List.nodup_cons.mp hnd).1]
      have hstep : (indexStep st p).byId = setById st.byId p.id (refresh p) := rfl
      rw [hstep, findById_setById, if_pos rfl]
    · rw [List.foldl_cons]
      exact ih _ (List.nodup_cons.mp hnd).2 hm'

theorem findById_buildIndexes {p : Product} {l : List Product}
    (hnd : (l.map Product.id).Nodup) (hm : p ∈ l) :
    findById (buildIndexes l).byId p.id = some (refresh p) :=
  findById_foldl_mem l emptyIndexState hnd hm

theorem refresh_refresh (p : Product) : refresh (refresh p) = refresh p := rfl

theorem indexStep_refresh (st : IndexState) (p : Product) :
    indexStep st (refresh p) = indexStep st p := by
  show indexStep st (refresh p) = indexStep st p
  unfold indexStep
  rw [refresh_refresh]

theorem foldl_indexStep_map_refresh :
    ∀ (l : List Product) (st : IndexState),
      (l.map refresh).foldl indexStep st = l.foldl indexStep st := by
  intro l
  induction l with
  | nil => intro st; rfl
  | cons p l' ih =>
    intro st
    rw [List.map_cons, List.foldl_cons, List.foldl_cons, indexStep_refresh, ih]

theorem foldl_filter_some (idx : Index) :
    ∀ (ks : List Chars) (s : List Nat),
      ks.foldl
        (fun acc k =>
          match acc with
          | none => some (findIdx idx k)
          | some s' => some (s'.filter (fun i => i ∈ findIdx idx k)))
        (some s) =
      some (ks.foldl (fun s' k => s'.filter (fun i => i ∈ findIdx idx k)) s) := by
  intro ks
  induction ks with
  | nil => intro s; rfl
  | cons k ks' ih => intro s; rw [List.foldl_cons, List.foldl_cons]; exact ih _

theorem planFold_cons (idx : Index) (k : Chars) (ks : List Chars) :
    planFold idx (k :: ks) =
      some (ks.foldl (fun s' k' => s'.filter (fun i => i ∈ findIdx idx k'))
        (findIdx idx k)) := by
  unfold planFold
  rw [List.foldl_cons]
  exact foldl_filter_some idx ks _

theorem mem_foldl_filter (idx : Index) {i : Nat} :
    ∀ (ks : List Chars) (s : List Nat),
      i ∈ ks.foldl (fun s' k => s'.filter (fun j => j ∈ findIdx idx k)) s ↔
        i ∈ s ∧ ∀ k ∈ ks, i ∈ findIdx idx k := by
  intro ks
  induction ks with
  | nil => intro s; simp
  | cons k ks' ih =>
    intro s
    rw [List.foldl_cons, ih]
    simp only [List.mem_filter, decide_eq_true_eq, List.mem_cons]
    constructor
    · rintro ⟨⟨h1, h2⟩, h3⟩
      refine ⟨h1, ?_⟩
      rintro k' (rfl | hk')
      · exact h2
      · exact h3 k' hk'
    · rintro ⟨h1, h2⟩
      exact ⟨⟨h1, h2 k (Or.inl rfl)⟩, fun k' hk' => h2 k' (Or.inr hk')⟩

theorem mem_planFold (idx : Index) {i : Nat} {k : Chars} {ks : List Chars}
    {s : List Nat} (h : planFold idx (k :: ks) = some s) :
    (i ∈ s ↔ ∀ k' ∈ k :: ks, i ∈ findIdx idx k') := by
  rw [planFold_cons] at h
  injection h with h
  subst h
  rw [mem_foldl_filter]
  simp only [List.mem_cons]
  constructor
  · rintro ⟨h1, h2⟩
    rintro k' (rfl | hk')
    · exact h1
    · exact h2 k' hk'
  · intro h1
    exact ⟨h1 k (Or.inl rfl), fun k' hk' => h1 k' (Or.inr hk')⟩

theorem getTrigrams_eq_nil {l : Chars} (h : l.length < 3) :
    getTrigrams l = [] := by
  cases l with
  | nil => rfl
  | cons a rest =>
    cases rest with
    | nil => rfl
    | cons b rest2 =>
      cases rest2 with
      | nil => rfl
      | cons c r => exact absurd h (by simp)

theorem filteredOf_search_eq (ix : IndexState) (Q : Chars) (s : List Nat)
    (hne : normalizeText Q ≠ [])
    (hcand : searchCandidates ix (normalizeText Q) = some s)
    (hs : 0 < s.length) :
    filteredOf ix Q [] =
      (s.filterMap (fun i => findById ix.byId i)).filter
        (fun p => hasSub (normalizeText Q) p.searchableText) := by
  simp only [filteredOf]
  rw [if_pos hne, hcand]
  simp only [ne_eq, not_true_eq_false, if_false, if_pos hne]
  rw [if_pos (by simpa using hs)]

theorem filteredOf_search_nil (ix : IndexState) (Q : Chars) (s : List Nat)
    (hne : normalizeText Q ≠ [])
    (hcand : searchCandidates ix (normalizeText Q) = some s)
    (hs : ¬0 < s.length) :
    filteredOf ix Q [] = [] := by
  simp only [filteredOf]
  rw [if_pos hne, hcand]
  simp only [ne_eq, not_true_eq_false, if_false, if_pos hne]
  rw [if_neg (by simpa using hs)]

theorem filteredOf_cat_inter (ix : IndexState) (Q C : Chars) (s : List Nat)
    (hne : normalizeText Q ≠ []) (hC : C ≠ [])
    (hcand : searchCandidates ix (normalizeText Q) = some s) :
    filteredOf ix Q C =
      (filteredOf ix Q []).filter (fun p => p.id ∈ findIdx ix.catIdx C) := by
  by_cases hs : 0 < s.length
  · rw [filteredOf_search_eq ix Q s hne hcand hs]
    simp only [filteredOf]
    rw [if_pos hne, hcand]
    simp only [ne_eq, not_true_eq_false, if_false]
    rw [if_pos hne, if_pos hs, if_pos hC]
  · rw [filteredOf_search_nil ix Q s hne hcand hs]
    simp only [filteredOf]
    rw [if_pos hne, hcand]
    simp only [ne_eq, not_true_eq_false, if_false]
    rw [if_pos hne, if_neg hs, if_pos hC]

theorem filteredOf_cat_bypass (ix : IndexState) (Q C : Chars)
    (hne : normalizeText Q ≠ []) (hC : C ≠ [])
    (hcand : searchCandidates ix (normalizeText Q) = none) :
    filteredOf ix Q C = (findIdx ix.catIdx C).filterMap
      (fun i => findById ix.byId i) := by
  simp only [filteredOf]
  rw [if_pos hne, hcand]
  rw [if_pos hC]

theorem filteredOf_search_none (ix : IndexState) (Q : Chars)
    (hne : normalizeText Q ≠ [])
    (hcand : searchCandidates ix (normalizeText Q) = none) :
    filteredOf ix Q [] = [] := by
  simp only [filteredOf]
  rw [if_pos hne, hcand]
  simp only [ne_eq, not_true_eq_false, if_false, if_pos hne]

theorem searchCandidates_mem {l : List Product} {p0 : Product} (hm : p0 ∈ l)
    {Q : Chars}
    (hocc : OccursIn (normalizeText Q) (refresh p0).searchableText)
    (helig : 3 ≤ (normalizeText Q).length ∨
      normalizeText Q ∈ getWords (refresh p0).searchableText) :
    ∃ s, searchCandidates (buildIndexes l) (normalizeText Q) = some s ∧
      p0.id ∈ s := by
  by_cases h3 : 3 ≤ (normalizeText Q).length
  · have hqt : getTrigrams (normalizeText Q) ≠ [] := getTrigrams_ne_nil h3
    obtain ⟨k, ks, hks⟩ : ∃ k ks, getTrigrams (normalizeText Q) = k :: ks := by
      cases hqt' : getTrigrams (normalizeText Q) with
      | nil => exact absurd hqt' hqt
      | cons k ks => exact ⟨k, ks, rfl⟩
    have hall : ∀ k' ∈ getTrigrams (normalizeText Q),
        p0.id ∈ findIdx (buildIndexes l).triIdx k' := by
      intro k' hk'
      obtain ⟨hlen, hocc'⟩ := mem_getTrigrams_sub hk'
      have hoccT : OccursIn k' (refresh p0).searchableText :=
        occursIn_trans hocc' hocc
      have hmem : k' ∈ getTrigrams (refresh p0).searchableText :=
        occursIn_mem_getTrigrams hoccT hlen
      exact (mem_triIdx_foldl l emptyIndexState).mpr (Or.inl ⟨p0, hm, rfl, hmem⟩)
    have hred : searchCandidates (buildIndexes l) (normalizeText Q) =
        planFold (buildIndexes l).triIdx (getTrigrams (normalizeText Q)) := by
      unfold searchCandidates
      rw [if_pos (by rw [hks]; simp)]
    refine ⟨_, by rw [hred, hks, planFold_cons], ?_⟩
    have hsome : planFold (buildIndexes l).triIdx (k :: ks) =
        some (ks.foldl
          (fun s' k' => s'.filter (fun i => i ∈ findIdx (buildIndexes l).triIdx k'))
          (findIdx (buildIndexes l).triIdx k)) := planFold_cons _ _ _
    rw [hks] at hall
    exact (mem_planFold _ hsome).mpr hall
  · have hw : normalizeText Q ∈ getWords (refresh p0).searchableText :=
      helig.resolve_left h3
    obtain ⟨hoccw, hlen2, halnum⟩ := mem_getWords_facts hw
    have hqt : getTrigrams (normalizeText Q) = [] := getTrigrams_eq_nil (by omega)
    have hqw : getWords (normalizeText Q) = [normalizeText Q] :=
      getWords_of_all_alnum halnum hlen2
    have hred : searchCandidates (buildIndexes l) (normalizeText Q) =
        planFold (buildIndexes l).wordIdx [normalizeText Q] := by
      unfold searchCandidates
      rw [hqt, hqw]
      rw [if_neg (by simp), if_pos (by simp)]
    refine ⟨_, by rw [hred, planFold_cons], ?_⟩
    have hsome : planFold (buildIndexes l).wordIdx [normalizeText Q] =
        some (findIdx (buildIndexes l).wordIdx (normalizeText Q)) := by
      rw [planFold_cons]
      rfl
    rw [planFold_cons] at hsome
    injection hsome with hsome
    rw [hsome]
    exact (mem_wordIdx_foldl l emptyIndexState).mpr (Or.inl ⟨p0, hm, rfl, hw⟩)

theorem normalizeText_ne_nil_of_elig {Q : Chars} {T : Chars}
    (helig : 3 ≤ (normalizeText Q).length ∨ normalizeText Q ∈ getWords T) :
    normalizeText Q ≠ [] := by
  rcases helig with h3 | hw
  · intro h; rw [h] at h3; simp at h3
  · have := (mem_getWords_facts hw).2.1
    intro h; rw [h] at this; simp at this

theorem mem_filteredOf_search {l : List Product}
    (hnd : (l.map Product.id).Nodup) {p0 : Product} (hm : p0 ∈ l) {Q : Chars}
    (hocc : OccursIn (normalizeText Q) (refresh p0).searchableText)
    (helig : 3 ≤ (normalizeText Q).length ∨
      normalizeText Q ∈ getWords (refresh p0).searchableText) :
    refresh p0 ∈ filteredOf (buildIndexes l) Q [] := by
  obtain ⟨s, hcand, hi⟩ := searchCandidates_mem hm hocc helig
  have hne : normalizeText Q ≠ [] := normalizeText_ne_nil_of_elig helig
  have hs : 0 < s.length := List.length_pos.mpr (List.ne_nil_of_mem hi)
  rw [filteredOf_search_eq _ _ s hne hcand hs]
  refine List.mem_filter.mpr ⟨?_, ?_⟩
  · exact List.mem_filterMap.mpr ⟨p0.id, hi, findById_buildIndexes hnd hm⟩
  · exact (hasSub_iff _ _).mpr hocc

theorem mem_paginate_exists {x : Product} {lst : List Product} (hm : x ∈ lst)
    {limit : Nat} (hl : 0 < limit) :
    ∃ pg : Nat, 0 < pg ∧ x ∈ paginateList lst pg limit := by
  obtain ⟨n, hn, rfl⟩ := List.mem_iff_getElem.mp hm
  refine ⟨n / limit + 1, Nat.succ_pos _, ?_⟩
  unfold paginateList
  have hidx : (n / limit + 1 - 1) * limit = n / limit * limit := by simp
  rw [hidx]
  have hmod : n / limit * limit + n % limit = n := by
    rw [Nat.mul_comm (n / limit) limit]
    exact Nat.div_add_mod n limit
  have h2 : (lst.drop (n / limit * limit))[n % limit]? = some lst[n] := by
    rw [List.getElem?_drop, hmod]
    exact List.getElem?_eq_getElem hn
  have h3 : ((lst.drop (n / limit * limit)).take limit)[n % limit]? =
      some lst[n] := by
    rw [List.getElem?_take, if_pos (Nat.mod_lt _ hl)]
    exact h2
  exact List.getElem?_mem h3

theorem mem_computeList_exists_page {ix : IndexState} {x : Product}
    {search category : Chars} (hm : x ∈ filteredOf ix search category)
    (rawLimit : Int) (f : SortField) (o : SortOrder) :
    ∃ pg : Int, toPublicProduct x ∈
      (computeList ix search category pg rawLimit f o).products := by
  have hms : x ∈ (if (filteredOf ix search category).length > 1 then
      orderByField (filteredOf ix search category) f o
      else filteredOf ix search category) := by
    split
    · exact ((List.mergeSort_perm (filteredOf ix search category)
        (cmpOf f o)).mem_iff).mpr hm
    · exact hm
  have hl : 0 < (min (max rawLimit 1) 100).toNat := by omega
  obtain ⟨pg, hpg, hmem⟩ := mem_paginate_exists hms hl
  refine ⟨(pg : Int), ?_⟩
  simp only [computeList]
  have hpage : (if 0 < ((pg : Nat) : Int) then ((pg : Nat) : Int).toNat else 1) = pg := by
    rw [if_pos (by exact_mod_cast hpg)]
    exact Int.toNat_natCast pg
  rw [hpage]
  exact List.mem_map_of_mem _ hmem

theorem computeList_products_sub {ix : IndexState} {search category : Chars}
    {rawPage rawLimit : Int} {f : SortField} {o : SortOrder} :
    ∀ y ∈ (computeList ix search category rawPage rawLimit f o).products,
      ∃ p, p ∈ filteredOf ix search category ∧ y = toPublicProduct p := by
  intro y hy
  simp only [computeList] at hy
  obtain ⟨p, hp, rfl⟩ := List.mem_map.mp hy
  refine ⟨p, ?_, rfl⟩
  have h1 : p ∈ (if (filteredOf ix search category).length > 1 then
      orderByField (filteredOf ix search category) f o
      else filteredOf ix search category) := by
    unfold paginateList at hp
    exact List.mem_of_mem_drop (List.mem_of_mem_take hp)
  revert h1
  split
  · intro h1
    exact ((List.mergeSort_perm _ (cmpOf f o)).mem_iff).mp h1
  · exact id

theorem normalizeText_ne_nil_of_idx {nq : Chars}
    (h : getTrigrams nq ≠ [] ∨ getWords nq ≠ []) : nq ≠ [] := by
  intro he
  subst he
  rcases h with h | h
  · exact h rfl
  · exact h rfl

theorem searchCandidates_isSome (ix : IndexState) (nq : Chars)
    (h : getTrigrams nq ≠ [] ∨ getWords nq ≠ []) :
    ∃ s, searchCandidates ix nq = some s := by
  by_cases h1 : getTrigrams nq = []
  · have h2 : getWords nq ≠ [] := by
      rcases h with h | h
      · exact absurd h1 h
      · exact h
    obtain ⟨k, ks, hq⟩ : ∃ k ks, getWords nq = k :: ks := by
      cases hq : getWords nq with
      | nil => exact absurd hq h2
      | cons k ks => exact ⟨k, ks, rfl⟩
    have hred : searchCandidates ix nq = planFold ix.wordIdx (getWords nq) := by
      unfold searchCandidates
      rw [if_neg (by simp [h1]), if_pos (by rw [hq]; simp)]
    rw [hred, hq, planFold_cons]
    exact ⟨_, rfl⟩
  · obtain ⟨k, ks, hq⟩ : ∃ k ks, getTrigrams nq = k :: ks := by
      cases hq : getTrigrams nq with
      | nil => exact absurd hq h1
      | cons k ks => exact ⟨k, ks, rfl⟩
    have hred : searchCandidates ix nq = planFold ix.triIdx (getTrigrams nq) := by
      unfold searchCandidates
      rw [if_pos (by rw [hq]; simp)]
    rw [hred, hq, planFold_cons]
    exact ⟨_, rfl⟩

theorem computeList_products_nil {ix : IndexState} {search category : Chars}
    {rawPage rawLimit : Int} {f : SortField} {o : SortOrder}
    (h : filteredOf ix search category = []) :
    (computeList ix search category rawPage rawLimit f o).products = [] := by
  simp only [computeList, h]
  simp [paginateList]

/-- Claim C1, counterexample: for the one-product catalog `[pAb]`
(searchable text "ab cd"), the query "!!" has non-empty normalization, yet
listing with `search = "!!"` and `category = "Books"` returns the product
even though its `searchableText` does not contain "!!" — the category
filter replaces the (empty) text-search result because the query yields
neither trigrams nor word tokens and `candidateIds` stays null. -/
theorem claim1_counterexample :
    normalizeText ['!', '!'] ≠ [] ∧
    toPublicProduct (refresh pAb) ∈
      (computeList stAb ['!', '!'] ['B', 'o', 'o', 'k', 's']
        1 25 SortField.name SortOrder.asc).products ∧
    hasSub (normalizeText ['!', '!']) (refresh pAb).searchableText = false := by
  refine ⟨by decide, by decide, by decide⟩

/-- Claim C1 (amended): provided the normalized query yields at least one
trigram or at least one word token, every product returned by the list
pipeline — with or without a category filter — has a `searchableText`
containing the normalized query as a literal substring.  (A non-empty
query yielding neither, such as "!!", bypasses the verification filter
when a category is supplied.) -/
theorem claim1_search_no_false_positives (ix : IndexState) (Q C : Chars)
    (rawPage rawLimit : Int) (f : SortField) (o : SortOrder)
    (helig : getTrigrams (normalizeText Q) ≠ [] ∨
      getWords (normalizeText Q) ≠ []) :
    ∀ y ∈ (computeList ix Q C rawPage rawLimit f o).products,
      ∃ p, y = toPublicProduct p ∧
        hasSub (normalizeText Q) p.searchableText = true := by
  have hne : normalizeText Q ≠ [] := normalizeText_ne_nil_of_idx helig
  obtain ⟨s, hcand⟩ := searchCandidates_isSome ix (normalizeText Q) helig
  intro y hy
  obtain ⟨p, hp, rfl⟩ := computeList_products_sub _ hy
  by_cases hC : C = []
  · subst hC
    by_cases hs : 0 < s.length
    · rw [filteredOf_search_eq ix Q s hne hcand hs] at hp
      exact ⟨p, rfl, (List.mem_filter.mp hp).2⟩
    · rw [filteredOf_search_nil ix Q s hne hcand hs] at hp
      simp at hp
  · rw [filteredOf_cat_inter ix Q C s hne hC hcand] at hp
    have hp2 := (List.mem_filter.mp hp).1
    by_cases hs : 0 < s.length
    · rw [filteredOf_search_eq ix Q s hne hcand hs] at hp2
      exact ⟨p, rfl, (List.mem_filter.mp hp2).2⟩
    · rw [filteredOf_search_nil ix Q s hne hcand hs] at hp2
      simp at hp2

/-- Claim C2, counterexample: in the catalog `[pRose]` (searchable text
"rose nice"), the query "ro" is a literal substring of the searchable text
and yields the word token "ro", yet the product appears on no page of
`listProducts(search = "ro")`: the word index has no key "ro" (only whole
words are keys), so the candidate intersection is empty. -/
theorem claim2_counterexample :
    hasSub ['r', 'o'] (refresh pRose).searchableText = true ∧
    getWords (normalizeText ['r', 'o']) ≠ [] ∧
    filteredOf stRose ['r', 'o'] [] = [] ∧
    ∀ pg rawLimit : Int, ∀ f : SortField, ∀ o : SortOrder,
      toPublicProduct (refresh pRose) ∉
        (computeList stRose ['r', 'o'] [] pg rawLimit f o).products := by
  refine ⟨by decide, by decide, by decide, ?_⟩
  intro pg rawLimit f o hmem
  obtain ⟨p, hp, _⟩ := computeList_products_sub _ hmem
  rw [(by decide : filteredOf stRose ['r', 'o'] [] = [])] at hp
  simp at hp

/-- Claim C2 (amended): if `Q` is a literal substring of a catalog
product's `searchableText` and either the normalized query is
trigram-eligible (length ≥ 3) or it is itself one of the product's word
tokens, then the product appears on some page of
`listProducts(search = Q)` — no false negatives in these cases.  (A short
substring that is not a whole word, such as "ro", is missed.) -/
theorem claim2_no_false_negatives (l : List Product)
    (hnd : (l.map Product.id).Nodup) (p0 : Product) (hm : p0 ∈ l)
    (Q : Chars) (rawLimit : Int) (f : SortField) (o : SortOrder)
    (hsub : hasSub Q (refresh p0).searchableText = true)
    (helig : 3 ≤ (normalizeText Q).length ∨
      normalizeText Q ∈ getWords (refresh p0).searchableText) :
    ∃ pg : Int, toPublicProduct (refresh p0) ∈
      (computeList (buildIndexes l) Q [] pg rawLimit f o).products := by
  have hocc : OccursIn (normalizeText Q) (refresh p0).searchableText :=
    occursIn_normalize_of_occursIn ((hasSub_iff _ _).mp hsub)
  exact mem_computeList_exists_page
    (mem_filteredOf_search hnd hm hocc helig) rawLimit f o

/-- Companion witness for the amended claim C2, instantiated on the
catalog `[pRose]` with the whole-word query "rose". -/
theorem claim2_no_false_negatives_witness :
    ((([pRose] : List Product).map Product.id).Nodup ∧
      pRose ∈ [pRose] ∧
      hasSub ['r', 'o', 's', 'e'] (refresh pRose).searchableText = true ∧
      (3 ≤ (normalizeText ['r', 'o', 's', 'e']).length ∨
        normalizeText ['r', 'o', 's', 'e'] ∈
          getWords (refresh pRose).searchableText)) ∧
    (∃ pg : Int, toPublicProduct (refresh pRose) ∈
      (computeList (buildIndexes [pRose]) ['r', 'o', 's', 'e'] []
        pg 25 SortField.name SortOrder.asc).products) :=
  ⟨⟨by decide, by decide, by decide, by decide⟩,
    claim2_no_false_negatives [pRose] (by decide) pRose (by decide)
      ['r', 'o', 's', 'e'] 25 SortField.name SortOrder.asc
      (by decide) (by decide)⟩

/-- Claim C3, counterexample: in the catalog `[pAb]`, the non-empty search
query "??" produces an empty text-search result, yet adding
`category = "Books"` makes the handler return the category's product — the
category filter replaces rather than intersects the search survivors when
the query yields neither trigrams nor word tokens. -/
theorem claim3_counterexample :
    normalizeText ['?', '?'] ≠ [] ∧
    filteredOf stAb ['?', '?'] [] = [] ∧
    (computeList stAb ['?', '?'] ['B', 'o', 'o', 'k', 's']
      1 25 SortField.name SortOrder.asc).products =
      [toPublicProduct (refresh pAb)] := by
  refine ⟨by decide, by decide, by decide⟩

/-- Claim C3 (amended): provided the normalized query yields at least one
trigram or word token, the category filter only intersects the text-search
survivors (every returned product is a survivor of the search without the
category filter), and an empty survivor set forces an empty final result
even when the category has members. -/
theorem claim3_category_intersects (ix : IndexState) (Q C : Chars)
    (rawPage rawLimit : Int) (f : SortField) (o : SortOrder)
    (helig : getTrigrams (normalizeText Q) ≠ [] ∨
      getWords (normalizeText Q) ≠ []) (hC : C ≠ []) :
    (∀ y ∈ (computeList ix Q C rawPage rawLimit f o).products,
      ∃ p, y = toPublicProduct p ∧ p ∈ filteredOf ix Q []) ∧
    (filteredOf ix Q [] = [] →
      (computeList ix Q C rawPage rawLimit f o).products = []) := by
  have hne : normalizeText Q ≠ [] := normalizeText_ne_nil_of_idx helig
  obtain ⟨s, hcand⟩ := searchCandidates_isSome ix (normalizeText Q) helig
  constructor
  · intro y hy
    obtain ⟨p, hp, rfl⟩ := computeList_products_sub _ hy
    rw [filteredOf_cat_inter ix Q C s hne hC hcand] at hp
    exact ⟨p, rfl, (List.mem_filter.mp hp).1⟩
  · intro hnil
    apply computeList_products_nil
    rw [filteredOf_cat_inter ix Q C s hne hC hcand, hnil]
    rfl

/-- Companion witness for the amended claim C1: instantiated on the
catalog `[pRose]` with query "rose" and category "Books". -/
theorem claim1_search_no_false_positives_witness :
    (getTrigrams (normalizeText ['r', 'o', 's', 'e']) ≠ [] ∨
      getWords (normalizeText ['r', 'o', 's', 'e']) ≠ []) ∧
    (∀ y ∈ (computeList stRose ['r', 'o', 's', 'e'] ['B', 'o', 'o', 'k', 's']
        1 25 SortField.name SortOrder.asc).products,
      ∃ p, y = toPublicProduct p ∧
        hasSub (normalizeText ['r', 'o', 's', 'e']) p.searchableText = true) :=
  ⟨by decide,
    claim1_search_no_false_positives stRose ['r', 'o', 's', 'e']
      ['B', 'o', 'o', 'k', 's'] 1 25 SortField.name SortOrder.asc (by decide)⟩

/-- Companion witness for the amended claim C3: instantiated on the
catalog `[pRose]` with query "rose" and category "Books". -/
theorem claim3_category_intersects_witness :
    ((getTrigrams (normalizeText ['r', 'o', 's', 'e']) ≠ [] ∨
      getWords (normalizeText ['r', 'o', 's', 'e']) ≠ []) ∧
      (['B', 'o', 'o', 'k', 's'] : Chars) ≠ []) ∧
    ((∀ y ∈ (computeList stRose ['r', 'o', 's', 'e'] ['B', 'o', 'o', 'k', 's']
        1 25 SortField.name SortOrder.asc).products,
      ∃ p, y = toPublicProduct p ∧ p ∈ filteredOf stRose ['r', 'o', 's', 'e'] []) ∧
     (filteredOf stRose ['r', 'o', 's', 'e'] [] = [] →
      (computeList stRose ['r', 'o', 's', 'e'] ['B', 'o', 'o', 'k', 's']
        1 25 SortField.name SortOrder.asc).products = [])) :=
  ⟨⟨by decide, by decide⟩,
    claim3_category_intersects stRose ['r', 'o', 's', 'e']
      ['B', 'o', 'o', 'k', 's'] 1 25 SortField.name SortOrder.asc
      (by decide) (by decide)⟩

theorem length_paginateList (lst : List Product) (pg limit : Nat) :
    (paginateList lst pg limit).length =
      min limit (lst.length - (pg - 1) * limit) := by
  unfold paginateList
  rw [List.length_take, List.length_drop]

theorem sorted_length (fp : List Product) (f : SortField) (o : SortOrder) :
    (if fp.length > 1 then orderByField fp f o else fp).length = fp.length := by
  split
  · exact (List.mergeSort_perm fp (cmpOf f o)).length_eq
  · rfl

theorem computeList_products_length (ix : IndexState)
    (search category : Chars) (rawPage rawLimit : Int)
    (f : SortField) (o : SortOrder) :
    (computeList ix search category rawPage rawLimit f o).products.length =
      min ((min (max rawLimit 1) 100).toNat)
        ((filteredOf ix search category).length -
          ((if 0 < rawPage then rawPage.toNat else 1) - 1) *
            (min (max rawLimit 1) 100).toNat) := by
  simp only [computeList, List.length_map]
  rw [length_paginateList, sorted_length]

theorem sum_min_tele (n limit : Nat) :
    ∀ t, (∑ k ∈ Finset.range t, min limit (n - k * limit)) =
      min (t * limit) n := by
  intro t
  induction t with
  | zero => simp
  | succ t ih =>
    rw [Finset.sum_range_succ, ih]
    have ha : (t + 1) * limit = t * limit + limit := by ring
    omega

theorem paginate_beyond {n L page : Nat} (hL : 0 < L)
    (h : (n + L - 1) / L < page) : n - (page - 1) * L = 0 := by
  have hq := Nat.div_add_mod (n + L - 1) L
  have hr : (n + L - 1) % L < L := Nat.mod_lt _ hL
  have hc : L * ((n + L - 1) / L) = ((n + L - 1) / L) * L := Nat.mul_comm _ _
  have h2 : ((n + L - 1) / L) * L ≥ n := by omega
  have h3 : (n + L - 1) / L ≤ page - 1 := by omega
  have h4 : ((n + L - 1) / L) * L ≤ (page - 1) * L := Nat.mul_le_mul_right _ h3
  omega

/-- Claim C6: for the list pipeline, the response carries status 200,
`totalItems` is the size of the filtered set, `totalPages` is the ceiling
of `totalItems / itemsPerPage` (pinned by the two bounds), the returned
page is the `[(page-1)*limit, (page-1)*limit + limit)` slice (its length
is the natural clamp), the page sizes over pages `1..totalPages` sum to
`totalItems`, and a page beyond `totalPages` yields an empty product list
with the same non-error (200) response. -/
theorem claim6_pagination (ix : IndexState) (search category : Chars)
    (rawPage rawLimit : Int) (f : SortField) (o : SortOrder) :
    (computeList ix search category rawPage rawLimit f o).status = 200 ∧
    (computeList ix search category rawPage rawLimit f o).totalItems =
      (filteredOf ix search category).length ∧
    (computeList ix search category rawPage rawLimit f o).totalItems ≤
      (computeList ix search category rawPage rawLimit f o).totalPages *
        (computeList ix search category rawPage rawLimit f o).itemsPerPage ∧
    (computeList ix search category rawPage rawLimit f o).totalPages *
        (computeList ix search category rawPage rawLimit f o).itemsPerPage <
      (computeList ix search category rawPage rawLimit f o).totalItems +
        (computeList ix search category rawPage rawLimit f o).itemsPerPage ∧
    (computeList ix search category rawPage rawLimit f o).products.length =
      min (computeList ix search category rawPage rawLimit f o).itemsPerPage
        ((computeList ix search category rawPage rawLimit f o).totalItems -
          ((computeList ix search category rawPage rawLimit f o).currentPage - 1) *
            (computeList ix search category rawPage rawLimit f o).itemsPerPage) ∧
    (∑ k ∈ Finset.range
        (computeList ix search category rawPage rawLimit f o).totalPages,
      (computeList ix search category (((k + 1 : Nat) : Int)) rawLimit f o).products.length) =
      (computeList ix search category rawPage rawLimit f o).totalItems ∧
    ((computeList ix search category rawPage rawLimit f o).totalPages <
        (computeList ix search category rawPage rawLimit f o).currentPage →
      (computeList ix search category rawPage rawLimit f o).products = []) := by
  have hL : 0 < (min (max rawLimit 1) 100).toNat := by omega
  have hq := Nat.div_add_mod
    ((filteredOf ix search category).length + (min (max rawLimit 1) 100).toNat - 1)
    (min (max rawLimit 1) 100).toNat
  have hr : ((filteredOf ix search category).length +
      (min (max rawLimit 1) 100).toNat - 1) % (min (max rawLimit 1) 100).toNat <
      (min (max rawLimit 1) 100).toNat := Nat.mod_lt _ hL
  have hc : (min (max rawLimit 1) 100).toNat *
      (((filteredOf ix search category).length +
        (min (max rawLimit 1) 100).toNat - 1) / (min (max rawLimit 1) 100).toNat) =
      (((filteredOf ix search category).length +
        (min (max rawLimit 1) 100).toNat - 1) / (min (max rawLimit 1) 100).toNat) *
      (min (max rawLimit 1) 100).toNat := Nat.mul_comm _ _
  refine ⟨rfl, rfl, ?_, ?_, ?_, ?_, ?_⟩
  · show (filteredOf ix search category).length ≤
      (((filteredOf ix search category).length +
        (min (max rawLimit 1) 100).toNat - 1) / (min (max rawLimit 1) 100).toNat) *
        (min (max rawLimit 1) 100).toNat
    omega
  · show (((filteredOf ix search category).length +
        (min (max rawLimit 1) 100).toNat - 1) / (min (max rawLimit 1) 100).toNat) *
        (min (max rawLimit 1) 100).toNat <
      (filteredOf ix search category).length + (min (max rawLimit 1) 100).toNat
    omega
  · exact computeList_products_length ix search category rawPage rawLimit f o
  · have hterm : ∀ k, (computeList ix search category (((k + 1 : Nat)) : Int)
        rawLimit f o).products.length =
        min (min (max rawLimit 1) 100).toNat
          ((filteredOf ix search category).length -
            k * (min (max rawLimit 1) 100).toNat) := by
      intro k
      rw [computeList_products_length]
      have h1 : (if (0 : Int) < ((k + 1 : Nat) : Int)
          then (((k + 1 : Nat)) : Int).toNat else 1) = k + 1 := by
        rw [if_pos (by exact_mod_cast Nat.succ_pos k)]
        exact Int.toNat_natCast (k + 1)
      rw [h1]
      norm_num
    rw [Finset.sum_congr rfl (fun k _ => hterm k), sum_min_tele]
    show min ((((filteredOf ix search category).length +
        (min (max rawLimit 1) 100).toNat - 1) / (min (max rawLimit 1) 100).toNat) *
        (min (max rawLimit 1) 100).toNat)
      (filteredOf ix search category).length =
      (filteredOf ix search category).length
    omega
  · intro hbeyond
    have hb : ((filteredOf ix search category).length +
        (min (max rawLimit 1) 100).toNat - 1) / (min (max rawLimit 1) 100).toNat <
        (if 0 < rawPage then rawPage.toNat else 1) := hbeyond
    have h0 := paginate_beyond hL hb
    have hlen := computeList_products_length ix search category rawPage rawLimit f o
    rw [h0] at hlen
    rw [Nat.min_zero] at hlen
    exact List.length_eq_zero.mp hlen

/-- Companion witness for claim C6: requesting page 5 of the one-product
catalog `[pRose]` (one total page) yields an empty product list. -/
theorem claim6_pagination_witness :
    ((computeList stRose [] [] 5 25 SortField.name SortOrder.asc).totalPages <
      (computeList stRose [] [] 5 25 SortField.name SortOrder.asc).currentPage) ∧
    (computeList stRose [] [] 5 25 SortField.name SortOrder.asc).products = [] :=
  ⟨by decide,
    (claim6_pagination stRose [] [] 5 25 SortField.name SortOrder.asc).2.2.2.2.2.2
      (by decide)⟩

theorem lexLe_refl : ∀ l : Chars, lexLe l l = true := by
  intro l
  induction l with
  | nil => rfl
  | cons a t ih =>
    rw [lexLe]
    rw [if_neg (Nat.lt_irrefl _), if_neg (Nat.lt_irrefl _)]
    exact ih

theorem lexLe_total : ∀ a b : Chars, (lexLe a b || lexLe b a) = true := by
  intro a
  induction a with
  | nil => intro b; rw [lexLe]; simp
  | cons x xs ih =>
    intro b
    cases b with
    | nil => rw [lexLe, lexLe]; simp
    | cons y ys =>
      rw [lexLe, lexLe]
      by_cases h1 : x.toNat < y.toNat
      · simp [h1]
      · by_cases h2 : y.toNat < x.toNat
        · simp [h1, h2]
        · simp only [if_neg h1, if_neg h2]
          exact ih ys

theorem lexLe_trans : ∀ a b c : Chars,
    lexLe a b = true → lexLe b c = true → lexLe a c = true := by
  intro a
  induction a with
  | nil => intro b c _ _; rfl
  | cons x xs ih =>
    intro b c h1 h2
    cases b with
    | nil => rw [lexLe] at h1; exact absurd h1 (by simp)
    | cons y ys =>
      cases c with
      | nil => rw [lexLe] at h2; exact absurd h2 (by simp)
      | cons z zs =>
        rw [lexLe] at h1 h2 ⊢
        by_cases hxy : x.toNat < y.toNat
        · by_cases hyz : y.toNat < z.toNat
          · rw [if_pos (by omega)]
          · rw [if_neg hyz] at h2
            by_cases hzy : z.toNat < y.toNat
            · rw [if_pos hzy] at h2
              exact absurd h2 (by simp)
            · have : y.toNat = z.toNat := by omega
              rw [if_pos (by omega)]
        · rw [if_neg hxy] at h1
          by_cases hyx : y.toNat < x.toNat
          · rw [if_pos hyx] at h1
            exact absurd h1 (by simp)
          · rw [if_neg hyx] at h1
            have hxy' : x.toNat = y.toNat := by omega
            by_cases hyz : y.toNat < z.toNat
            · rw [if_pos (by omega)]
            · rw [if_neg hyz] at h2
              by_cases hzy : z.toNat < y.toNat
              · rw [if_pos hzy] at h2
                exact absurd h2 (by simp)
              · rw [if_neg hzy] at h2
                rw [if_neg (by omega), if_neg (by omega)]
                exact ih ys zs h1 h2

theorem fieldLe_refl (v : FieldVal) : fieldLe v v = true := by
  cases v with
  | s a => exact lexLe_refl a
  | i a => simp [fieldLe]
  | n a => simp [fieldLe]

theorem fieldLe_trans (u v w : FieldVal) (h1 : fieldLe u v = true)
    (h2 : fieldLe v w = true) : fieldLe u w = true := by
  cases u <;> cases v <;> cases w <;>
    simp [fieldLe] at h1 h2 ⊢ <;>
    first
      | exact lexLe_trans _ _ _ h1 h2
      | omega

theorem fieldLe_total (u v : FieldVal) : (fieldLe u v || fieldLe v u) = true := by
  cases u <;> cases v <;>
    first
      | exact lexLe_total _ _
      | (simp [fieldLe]; omega)
      | simp [fieldLe]

theorem cmpOf_trans (f : SortField) (o : SortOrder) (a b c : Product)
    (h1 : cmpOf f o a b = true) (h2 : cmpOf f o b c = true) :
    cmpOf f o a c = true := by
  cases o with
  | asc => exact fieldLe_trans _ _ _ h1 h2
  | desc => exact fieldLe_trans _ _ _ h2 h1

theorem cmpOf_total (f : SortField) (o : SortOrder) (a b : Product) :
    (cmpOf f o a b || cmpOf f o b a) = true := by
  cases o with
  | asc => exact fieldLe_total _ _
  | desc => exact fieldLe_total _ _

theorem cmpOf_of_eq_key {f : SortField} (o : SortOrder) {a b : Product}
    (h : fieldOf f a = fieldOf f b) : cmpOf f o a b = true := by
  cases o with
  | asc => show fieldLe (fieldOf f a) (fieldOf f b) = true; rw [h]; exact fieldLe_refl _
  | desc => show fieldLe (fieldOf f b) (fieldOf f a) = true; rw [h]; exact fieldLe_refl _

theorem pairwise_key_cmp (f : SortField) (o : SortOrder) (k : FieldVal) :
    ∀ lst : List Product, List.Pairwise
      (fun x y => fieldOf f x = k → fieldOf f y = k → cmpOf f o x y = true)
      lst := by
  intro lst
  induction lst with
  | nil => exact List.Pairwise.nil
  | cons a t ih =>
    exact List.Pairwise.cons
      (fun b _ hx hy => cmpOf_of_eq_key o (hx.trans hy.symm)) ih

/-- Claim C7: the pipeline sort (the guarded `_.orderBy` call, modelled as
the stable sort by the requested field comparator) is stable: for every
candidate list, sort field, direction and key value, the products whose
sort key equals that value appear in the output in exactly their pre-sort
relative order.  In particular, sorting by price ascending preserves the
relative order of duplicate prices. -/
theorem claim7_sort_stable (lst : List Product) (f : SortField)
    (o : SortOrder) (k : FieldVal) :
    (if lst.length > 1 then orderByField lst f o else lst).filter
        (fun p => decide (fieldOf f p = k)) =
      lst.filter (fun p => decide (fieldOf f p = k)) := by
  split
  · unfold orderByField
    have hpw : List.Pairwise (fun a b => cmpOf f o a b = true)
        (lst.filter (fun p => decide (fieldOf f p = k))) := by
      rw [List.pairwise_filter]
      exact pairwise_key_cmp f o k lst
    have hsub : (lst.filter (fun p => decide (fieldOf f p = k))).Sublist
        (lst.mergeSort (cmpOf f o)) :=
      List.sublist_mergeSort (cmpOf_trans f o) (cmpOf_total f o) hpw
        (List.filter_sublist lst)
    have hsub2 : (lst.filter (fun p => decide (fieldOf f p = k))).Sublist
        ((lst.mergeSort (cmpOf f o)).filter (fun p => decide (fieldOf f p = k))) := by
      have h3 := List.Sublist.filter (fun p => decide (fieldOf f p = k)) hsub
      rwa [List.filter_eq_self.mpr (fun a ha => (List.mem_filter.mp ha).2)] at h3
    have hperm : ((lst.mergeSort (cmpOf f o)).filter
        (fun p => decide (fieldOf f p = k))).Perm
        (lst.filter (fun p => decide (fieldOf f p = k))) :=
      (List.mergeSort_perm lst (cmpOf f o)).filter _
    exact (hsub2.eq_of_length hperm.length_eq.symm).symm
  · rfl

/-- Claim C9: `buildIndexes` is deterministic (it is a pure function of the
product list) and idempotent: rebuilding over the product collection it
just produced — name, description and all other fields unchanged,
`searchableText` recomputed in place — yields identical primary, word,
trigram and category indexes and identical `searchableText` fields. -/
theorem claim9_rebuild_idempotent (l : List Product) :
    buildIndexes ((buildIndexes l).products) = buildIndexes l := by
  rw [buildIndexes_products]
  unfold buildIndexes
  exact foldl_indexStep_map_refresh l emptyIndexState

/-- Claim C8: after a rebuild over products with distinct ids, the indexes
are mutually consistent — every id in any posting set of the word, trigram
or category index resolves in the primary index to a product of the
current product set, and that product indeed contains the word / trigram /
category the posting was filed under. -/
theorem claim8_index_consistency (l : List Product)
    (hnd : (l.map Product.id).Nodup) :
    (∀ k i, i ∈ findIdx (buildIndexes l).wordIdx k →
      ∃ p, findById (buildIndexes l).byId i = some p ∧
        p ∈ (buildIndexes l).products ∧ k ∈ getWords p.searchableText) ∧
    (∀ k i, i ∈ findIdx (buildIndexes l).triIdx k →
      ∃ p, findById (buildIndexes l).byId i = some p ∧
        p ∈ (buildIndexes l).products ∧ k ∈ getTrigrams p.searchableText) ∧
    (∀ k i, i ∈ findIdx (buildIndexes l).catIdx k →
      ∃ p, findById (buildIndexes l).byId i = some p ∧
        p ∈ (buildIndexes l).products ∧ p.category = k) := by
  refine ⟨?_, ?_, ?_⟩
  · intro k i hi
    rcases (mem_wordIdx_foldl l emptyIndexState).mp hi with ⟨p, hp, rfl, hk⟩ | h
    · refine ⟨refresh p, findById_buildIndexes hnd hp, ?_, hk⟩
      rw [buildIndexes_products]
      exact List.mem_map_of_mem _ hp
    · simp [emptyIndexState, findIdx] at h
  · intro k i hi
    rcases (mem_triIdx_foldl l emptyIndexState).mp hi with ⟨p, hp, rfl, hk⟩ | h
    · refine ⟨refresh p, findById_buildIndexes hnd hp, ?_, hk⟩
      rw [buildIndexes_products]
      exact List.mem_map_of_mem _ hp
    · simp [emptyIndexState, findIdx] at h
  · intro k i hi
    rcases (mem_catIdx_foldl l emptyIndexState).mp hi with ⟨p, hp, rfl, hk⟩ | h
    · refine ⟨refresh p, findById_buildIndexes hnd hp, ?_, hk⟩
      rw [buildIndexes_products]
      exact List.mem_map_of_mem _ hp
    · simp [emptyIndexState, findIdx] at h

/-- Companion witness for claim C8, instantiated on the catalog `[pRose]`. -/
theorem claim8_index_consistency_witness :
    (([pRose] : List Product).map Product.id).Nodup ∧
    ((∀ k i, i ∈ findIdx (buildIndexes [pRose]).wordIdx k →
      ∃ p, findById (buildIndexes [pRose]).byId i = some p ∧
        p ∈ (buildIndexes [pRose]).products ∧ k ∈ getWords p.searchableText) ∧
    (∀ k i, i ∈ findIdx (buildIndexes [pRose]).triIdx k →
      ∃ p, findById (buildIndexes [pRose]).byId i = some p ∧
        p ∈ (buildIndexes [pRose]).products ∧ k ∈ getTrigrams p.searchableText) ∧
    (∀ k i, i ∈ findIdx (buildIndexes [pRose]).catIdx k →
      ∃ p, findById (buildIndexes [pRose]).byId i = some p ∧
        p ∈ (buildIndexes [pRose]).products ∧ p.category = k)) :=
  ⟨by decide, claim8_index_consistency [pRose] (by decide)⟩

/-- Claim C4: each of the three mutations (create, update, delete), when it
succeeds, ends in a full rebuild whose unconditional side effect empties
the response cache, so a subsequent lookup of any key at any time misses;
and on a state with an empty cache the list handler always serves a
freshly computed response. -/
theorem claim4_mutation_clears_cache :
    (∀ (st : AppState) (d : CreateData) (now : Nat) (st' : AppState),
      createProduct st d now = some st' →
        st'.cache = [] ∧ ∀ key t, getCachedResponse st'.cache key t = none) ∧
    (∀ (st : AppState) (pid : Nat) (u : PatchData) (st' : AppState),
      updateProductOp st pid u = some st' →
        st'.cache = [] ∧ ∀ key t, getCachedResponse st'.cache key t = none) ∧
    (∀ (st : AppState) (pid : Nat) (st' : AppState),
      deleteProductOp st pid = some st' →
        st'.cache = [] ∧ ∀ key t, getCachedResponse st'.cache key t = none) ∧
    (∀ (st : AppState), st.cache = [] →
      ∀ search category rawPage rawLimit f o now,
        (handleList st search category rawPage rawLimit f o now).1 =
          computeList st.ix search category rawPage rawLimit f o) := by
  refine ⟨?_, ?_, ?_, ?_⟩
  · intro st d now st' h
    simp only [createProduct] at h
    split at h
    · injection h with h
      subst h
      exact ⟨rfl, fun key t => rfl⟩
    · cases h
  · intro st pid u st' h
    simp only [updateProductOp] at h
    split at h
    · split at h
      · injection h with h
        subst h
        exact ⟨rfl, fun key t => rfl⟩
      · cases h
    · cases h
  · intro st pid st' h
    simp only [deleteProductOp] at h
    split at h
    · injection h with h
      subst h
      exact ⟨rfl, fun key t => rfl⟩
    · cases h
  · intro st hcache search category rawPage rawLimit f o now
    simp only [handleList, hcache]
    rfl

/-- Companion witness for claim C4: creating a product on a state holding
a live cache entry leaves an empty cache behind. -/
theorem claim4_mutation_clears_cache_witness :
    ∃ st', createProduct appWithCache cdOk 0 = some st' ∧ st'.cache = [] ∧
      ∀ key t, getCachedResponse st'.cache key t = none := by
  have hs : (createProduct appWithCache cdOk 0).isSome = true := by decide
  have h : createProduct appWithCache cdOk 0 =
      some ((createProduct appWithCache cdOk 0).get hs) := (Option.some_get hs).symm
  obtain ⟨h1, h2⟩ := claim4_mutation_clears_cache.1 _ _ _ _ h
  exact ⟨_, h, h1, h2⟩

theorem applyPatch_id (p : Product) (u : PatchData) :
    (applyPatch p u).id = p.id := by
  unfold applyPatch
  cases u.name <;> cases u.description <;> cases u.price <;>
    cases u.category <;> cases u.brand <;> cases u.stock <;> cases u.tags <;> rfl

theorem applyPatch_rating (p : Product) (u : PatchData) :
    (applyPatch p u).rating = p.rating := by
  unfold applyPatch
  cases u.name <;> cases u.description <;> cases u.price <;>
    cases u.category <;> cases u.brand <;> cases u.stock <;> cases u.tags <;> rfl

theorem applyPatch_createdAt (p : Product) (u : PatchData) :
    (applyPatch p u).createdAt = p.createdAt := by
  unfold applyPatch
  cases u.name <;> cases u.description <;> cases u.price <;>
    cases u.category <;> cases u.brand <;> cases u.stock <;> cases u.tags <;> rfl

theorem applyPatch_name (p : Product) (u : PatchData) (h : u.name = none) :
    (applyPatch p u).name = p.name := by
  unfold applyPatch
  rw [h]
  cases u.description <;> cases u.price <;>
    cases u.category <;> cases u.brand <;> cases u.stock <;> cases u.tags <;> rfl

theorem applyPatch_description (p : Product) (u : PatchData)
    (h : u.description = none) :
    (applyPatch p u).description = p.description := by
  unfold applyPatch
  rw [h]
  cases u.name <;> cases u.price <;>
    cases u.category <;> cases u.brand <;> cases u.stock <;> cases u.tags <;> rfl

theorem applyPatch_price (p : Product) (u : PatchData) (h : u.price = none) :
    (applyPatch p u).price = p.price := by
  unfold applyPatch
  rw [h]
  cases u.name <;> cases u.description <;>
    cases u.category <;> cases u.brand <;> cases u.stock <;> cases u.tags <;> rfl

theorem applyPatch_category (p : Product) (u : PatchData)
    (h : u.category = none) :
    (applyPatch p u).category = p.category := by
  unfold applyPatch
  rw [h]
  cases u.name <;> cases u.description <;> cases u.price <;>
    cases u.brand <;> cases u.stock <;> cases u.tags <;> rfl

theorem applyPatch_brand (p : Product) (u : PatchData) (h : u.brand = none) :
    (applyPatch p u).brand = p.brand := by
  unfold applyPatch
  rw [h]
  cases u.name <;> cases u.description <;> cases u.price <;>
    cases u.category <;> cases u.stock <;> cases u.tags <;> rfl

theorem applyPatch_stock (p : Product) (u : PatchData) (h : u.stock = none) :
    (applyPatch p u).stock = p.stock := by
  unfold applyPatch
  rw [h]
  cases u.name <;> cases u.description <;> cases u.price <;>
    cases u.category <;> cases u.brand <;> cases u.tags <;> rfl

theorem applyPatch_tags (p : Product) (u : PatchData) (h : u.tags = none) :
    (applyPatch p u).tags = p.tags := by
  unfold applyPatch
  rw [h]
  cases u.name <;> cases u.description <;> cases u.price <;>
    cases u.category <;> cases u.brand <;> cases u.stock <;> rfl

/-- Claim C10: a successful update replaces exactly the product at the
found position by its patched copy (re-indexed), and that stored product
keeps its `id`, `rating` and `createdAt` unchanged, as well as every
updatable field whose patch entry is absent — `rating` is not updatable at
all through the public mutation API. -/
theorem claim10_update_frame (st : AppState) (pid : Nat) (u : PatchData)
    (st' : AppState) (h : updateProductOp st pid u = some st') :
    ∃ (i : Nat) (pOld : Product),
      st.ix.products[i]? = some pOld ∧
      st'.ix.products[i]? = some (refresh (applyPatch pOld u)) ∧
      (refresh (applyPatch pOld u)).id = pOld.id ∧
      (refresh (applyPatch pOld u)).rating = pOld.rating ∧
      (refresh (applyPatch pOld u)).createdAt = pOld.createdAt ∧
      (u.name = none → (refresh (applyPatch pOld u)).name = pOld.name) ∧
      (u.description = none →
        (refresh (applyPatch pOld u)).description = pOld.description) ∧
      (u.price = none → (refresh (applyPatch pOld u)).price = pOld.price) ∧
      (u.category = none →
        (refresh (applyPatch pOld u)).category = pOld.category) ∧
      (u.brand = none → (refresh (applyPatch pOld u)).brand = pOld.brand) ∧
      (u.stock = none → (refresh (applyPatch pOld u)).stock = pOld.stock) ∧
      (u.tags = none → (refresh (applyPatch pOld u)).tags = pOld.tags) := by
  simp only [updateProductOp] at h
  split at h
  · split at h
    case h_1 pOld heq =>
      injection h with h
      subst h
      refine ⟨st.ix.products.findIdx (fun p => p.id = pid), pOld, heq, ?_, ?_⟩
      · have hlt : st.ix.products.findIdx (fun p => p.id = pid) <
            st.ix.products.length := (List.getElem?_eq_some_iff.mp heq).1
        show (buildIndexes (st.ix.products.set
            (st.ix.products.findIdx (fun p => p.id = pid))
            (applyPatch pOld u))).products[
          st.ix.products.findIdx (fun p => p.id = pid)]? =
          some (refresh (applyPatch pOld u))
        rw [buildIndexes_products, List.getElem?_map,
          List.getElem?_set_self hlt]
        rfl
      · exact ⟨applyPatch_id pOld u, applyPatch_rating pOld u,
          applyPatch_createdAt pOld u,
          fun hn => applyPatch_name pOld u hn,
          fun hn => applyPatch_description pOld u hn,
          fun hn => applyPatch_price pOld u hn,
          fun hn => applyPatch_category pOld u hn,
          fun hn => applyPatch_brand pOld u hn,
          fun hn => applyPatch_stock pOld u hn,
          fun hn => applyPatch_tags pOld u hn⟩
    case h_2 => cases h
  · cases h

/-- Companion witness for claim C10: updating only the price of the only
product of `appWithCache` keeps its rating and name. -/
theorem claim10_update_frame_witness :
    ∃ st', updateProductOp appWithCache 1 patchPrice = some st' ∧
      ∃ (i : Nat) (pOld : Product),
        appWithCache.ix.products[i]? = some pOld ∧
        st'.ix.products[i]? = some (refresh (applyPatch pOld patchPrice)) ∧
        (refresh (applyPatch pOld patchPrice)).rating = pOld.rating ∧
        (refresh (applyPatch pOld patchPrice)).name = pOld.name := by
  have hs : (updateProductOp appWithCache 1 patchPrice).isSome = true := by decide
  have h : updateProductOp appWithCache 1 patchPrice =
      some ((updateProductOp appWithCache 1 patchPrice).get hs) :=
    (Option.some_get hs).symm
  obtain ⟨i, pOld, h1, h2, _, h4, _, h6, _, _, _, _, _, _⟩ :=
    claim10_update_frame _ _ _ _ h
  exact ⟨_, h, i, pOld, h1, h2, h4, h6 rfl⟩

theorem digitCh_isDigit (k : Nat) : (digitCh k).isDigit = true := by
  unfold digitCh
  split <;> decide

theorem digitVal_digitCh (k : Nat) (h : k < 10) : digitVal (digitCh k) = k := by
  interval_cases k <;> decide

theorem natToChars_all_digits (n : Nat) :
    ∀ c ∈ natToChars n, c.isDigit = true := by
  induction n using Nat.strong_induction_on with
  | _ n ih =>
    rw [natToChars]
    by_cases h : n < 10
    · rw [if_pos h]
      intro c hc
      rcases List.mem_singleton.mp hc with rfl
      exact digitCh_isDigit n
    · rw [if_neg h]
      intro c hc
      rcases List.mem_append.mp hc with hc | hc
      · exact ih (n / 10) (Nat.div_lt_self (by omega) (by omega)) c hc
      · rcases List.mem_singleton.mp hc with rfl
        exact digitCh_isDigit (n % 10)

theorem natToChars_ne_nil (n : Nat) : natToChars n ≠ [] := by
  rw [natToChars]
  by_cases h : n < 10
  · rw [if_pos h]; simp
  · rw [if_neg h]; simp

theorem parseDigitsAux_stop (r : Chars) (acc : Nat)
    (hr : ∀ c, r.head? = some c → c.isDigit = false) :
    parseDigitsAux r acc = (acc, r) := by
  cases r with
  | nil => rfl
  | cons c t =>
    rw [parseDigitsAux]
    rw [if_neg (by rw [hr c rfl]; exact Bool.false_ne_true)]

theorem parseDigitsAux_natToChars (n : Nat) :
    ∀ (acc : Nat) (r : Chars),
      parseDigitsAux (natToChars n ++ r) acc =
        parseDigitsAux r (acc * 10 ^ (natToChars n).length + n) := by
  induction n using Nat.strong_induction_on with
  | _ n ih =>
    intro acc r
    by_cases h : n < 10
    · rw [natToChars, if_pos h]
      rw [List.singleton_append, parseDigitsAux,
        if_pos (digitCh_isDigit n), digitVal_digitCh n h]
      norm_num
    · rw [natToChars, if_neg h]
      rw [List.append_assoc, List.singleton_append]
      rw [ih (n / 10) (Nat.div_lt_self (by omega) (by omega))]
      rw [parseDigitsAux, if_pos (digitCh_isDigit (n % 10)),
        digitVal_digitCh (n % 10) (Nat.mod_lt _ (by omega))]
      congr 1
      have hlen : (natToChars (n / 10) ++ [digitCh (n % 10)]).length =
          (natToChars (n / 10)).length + 1 := by simp
      rw [hlen, pow_succ]
      have hdm : 10 * (n / 10) + n % 10 = n := Nat.div_add_mod n 10
      ring_nf
      omega

theorem parseNatTok_natToChars (n : Nat) (r : Chars)
    (hr : ∀ c, r.head? = some c → c.isDigit = false) :
    parseNatTok (natToChars n ++ r) = some (n, r) := by
  obtain ⟨c, t, hct⟩ : ∃ c t, natToChars n = c :: t := by
    cases hnt : natToChars n with
    | nil => exact absurd hnt (natToChars_ne_nil n)
    | cons c t => exact ⟨c, t, rfl⟩
  rw [hct, List.cons_append, parseNatTok,
    if_pos (natToChars_all_digits n c (by rw [hct]; simp)), ← List.cons_append,
    ← hct, parseDigitsAux_natToChars, parseDigitsAux_stop r _ hr]
  norm_num

theorem hexCh_isHexCh (k : Nat) (h : k < 16) : isHexCh (hexCh k) = true := by
  interval_cases k <;> decide

theorem digitVal_hexCh (k : Nat) (h : k < 16) : digitVal (hexCh k) = k := by
  interval_cases k <;> decide

theorem parseJStr_closing (r : Chars) : parseJStr (dqChar :: r) = some ([], r) := by
  rw [parseJStr.eq_def]
  simp

theorem parseJStr_plain {c : Char} {r s rest : Chars}
    (h1 : ¬c = dqChar) (h2 : ¬c = bslChar)
    (h : parseJStr r = some (s, rest)) :
    parseJStr (c :: r) = some (c :: s, rest) := by
  rw [parseJStr.eq_def]
  simp [h1, h2, h]

theorem parseJStr_named {e u : Char} {r s rest : Chars}
    (hu : ¬e = 'u') (hx : unescChar e = some u)
    (h : parseJStr r = some (s, rest)) :
    parseJStr (bslChar :: e :: r) = some (u :: s, rest) := by
  rw [parseJStr.eq_def]
  simp [(by decide : ¬bslChar = dqChar), hu, hx, h]

theorem parseJStr_uescape {h1c h2c : Char} {r s rest : Chars}
    (hx1 : isHexCh h1c = true) (hx2 : isHexCh h2c = true)
    (h : parseJStr r = some (s, rest)) :
    parseJStr (bslChar :: 'u' :: '0' :: '0' :: h1c :: h2c :: r) =
      some (Char.ofNat (16 * digitVal h1c + digitVal h2c) :: s, rest) := by
  rw [parseJStr.eq_def]
  simp [(by decide : ¬bslChar = dqChar), hx1, hx2, h]

theorem parseJStr_jsonEscape (s : Chars) :
    ∀ r : Chars, parseJStr (jsonEscape s ++ dqChar :: r) = some (s, r) := by
  induction s with
  | nil =>
    intro r
    show parseJStr (dqChar :: r) = some ([], r)
    exact parseJStr_closing r
  | cons c s ih =>
    intro r
    have hstep : jsonEscape (c :: s) = jsonEscChar c ++ jsonEscape s :=
      List.flatMap_cons c s jsonEscChar
    rw [hstep, List.append_assoc]
    unfold jsonEscChar
    by_cases h1 : c = dqChar
    · rw [if_pos h1, h1]
      exact parseJStr_named (by decide) (by rw [unescChar, if_pos rfl]) (ih r)
    · rw [if_neg h1]
      by_cases h2 : c = bslChar
      · rw [if_pos h2, h2]
        exact parseJStr_named (by decide)
          (by rw [unescChar, if_neg (by decide), if_pos rfl]) (ih r)
      · rw [if_neg h2]
        by_cases h3 : c = Char.ofNat 8
        · rw [if_pos h3, h3]
          exact parseJStr_named (by decide) (by decide) (ih r)
        · rw [if_neg h3]
          by_cases h4 : c = Char.ofNat 9
          · rw [if_pos h4, h4]
            exact parseJStr_named (by decide) (by decide) (ih r)
          · rw [if_neg h4]
            by_cases h5 : c = Char.ofNat 10
            · rw [if_pos h5, h5]
              exact parseJStr_named (by decide) (by decide) (ih r)
            · rw [if_neg h5]
              by_cases h6 : c = Char.ofNat 12
              · rw [if_pos h6, h6]
                exact parseJStr_named (by decide) (by decide) (ih r)
              · rw [if_neg h6]
                by_cases h7 : c = Char.ofNat 13
                · rw [if_pos h7, h7]
                  exact parseJStr_named (by decide) (by decide) (ih r)
                · rw [if_neg h7]
                  by_cases h8 : c.toNat < 32
                  · rw [if_pos h8]
                    have hdiv : c.toNat / 16 < 16 := by omega
                    have hmod : c.toNat % 16 < 16 := Nat.mod_lt _ (by omega)
                    have := parseJStr_uescape (r := jsonEscape s ++ dqChar :: r)
                      (hexCh_isHexCh _ hdiv) (hexCh_isHexCh _ hmod) (ih r)
                    rw [List.cons_append, List.cons_append, List.cons_append,
                      List.cons_append, List.cons_append, List.cons_append,
                      List.nil_append] at *
                    rw [this]
                    rw [digitVal_hexCh _ hdiv, digitVal_hexCh _ hmod]
                    have hc : 16 * (c.toNat / 16) + c.toNat % 16 = c.toNat :=
                      Nat.div_add_mod c.toNat 16
                    rw [hc, Char.ofNat_toNat]
                  · rw [if_neg h8]
                    rw [List.singleton_append]
                    exact parseJStr_plain h1 h2 (ih r)

theorem parseLit_append : ∀ (s r : Chars), parseLit s (s ++ r) = some r := by
  intro s
  induction s with
  | nil => intro r; rfl
  | cons c t ih =>
    intro r
    rw [List.cons_append, parseLit, if_pos rfl]
    exact ih r

theorem sortFieldOfChars_roundtrip (f : SortField) :
    sortFieldOfChars (sortFieldChars f) = some f := by
  cases f <;> decide

theorem sortOrderOfChars_roundtrip (o : SortOrder) :
    sortOrderOfChars (sortOrderChars o) = some o := by
  cases o <;> decide

theorem head_litLimit (X : Chars) :
    ∀ c, (litLimit ++ X).head? = some c → c.isDigit = false := by
  intro c hc
  have h0 : (litLimit ++ X).head? = some ',' := rfl
  rw [h0] at hc
  injection hc with hc
  rw [← hc]
  decide

theorem head_litSearch (X : Chars) :
    ∀ c, (litSearch ++ X).head? = some c → c.isDigit = false := by
  intro c hc
  have h0 : (litSearch ++ X).head? = some ',' := rfl
  rw [h0] at hc
  injection hc with hc
  rw [← hc]
  decide

theorem parseKey_getCacheKey (p : QueryParams) :
    parseKey (getCacheKey p) = some p := by
  obtain ⟨page, limit, search, category, sortBy, sortOrder⟩ := p
  unfold parseKey getCacheKey
  simp only [List.append_assoc, List.cons_append]
  rw [parseLit_append, Option.some_bind]
  rw [parseNatTok_natToChars page _ (head_litLimit _), Option.some_bind]
  rw [parseLit_append, Option.some_bind]
  rw [parseNatTok_natToChars limit _ (head_litSearch _), Option.some_bind]
  rw [parseLit_append, Option.some_bind]
  rw [parseJStr_jsonEscape, Option.some_bind]
  rw [parseLit_append, Option.some_bind]
  rw [parseJStr_jsonEscape, Option.some_bind]
  rw [parseLit_append, Option.some_bind]
  rw [parseJStr_jsonEscape, Option.some_bind]
  rw [parseLit_append, Option.some_bind]
  rw [parseJStr_jsonEscape, Option.some_bind]
  rw [if_pos rfl]
  rw [sortFieldOfChars_roundtrip, Option.some_bind]
  rw [sortOrderOfChars_roundtrip, Option.some_bind]

theorem getCacheKey_injective {p q : QueryParams}
    (h : getCacheKey p = getCacheKey q) : p = q := by
  have h1 := parseKey_getCacheKey p
  rw [h, parseKey_getCacheKey q] at h1
  injection h1 with h1
  exact h1.symm

/-- Claim C5, counterexample: the queries `search = "Red"` and
`search = "red"` have identical normalizations (so they are semantically
identical in the claim's sense), yet `getCacheKey` — which serializes the
raw search string — produces different keys for them. -/
theorem claim5_counterexample :
    normalizeText ['R', 'e', 'd'] = normalizeText ['r', 'e', 'd'] ∧
    getCacheKey ⟨1, 25, ['R', 'e', 'd'], [], SortField.name, SortOrder.asc⟩ ≠
      getCacheKey ⟨1, 25, ['r', 'e', 'd'], [], SortField.name, SortOrder.asc⟩ :=
  ⟨by decide, fun h => absurd (getCacheKey_injective h) (by decide)⟩

/-- Claim C5 (amended): the cache key is the JSON serialization of the
parameter object built in a fixed field order from the clamped `page` and
`limit`, the raw `search` and `category` strings, and the validated sort
parameters; it is canonical for raw parameter tuples — two queries produce
the same key exactly when their raw parameter tuples coincide (witnessed
by the explicit parser `parseKey`).  Queries that differ only up to
search-string normalization produce different keys. -/
theorem claim5_cache_key_canonical (p q : QueryParams) :
    getCacheKey p = getCacheKey q ↔ p = q :=
  ⟨getCacheKey_injective, fun h => h ▸ rfl⟩
